import Mathlib

/-!
Verification development for the read-faster document-ingestion core.

The TypeScript source (text-normalizer, epub-parser, pdf-parser, book-import
services) performs its text processing with JavaScript regular-expression
replace/exec loops.  Every pattern used by the source is deterministic (no
essential backtracking), so each regex pass is embedded here as a left-to-right
scanner over `List Char`: at each position a matcher function either fails
(the scanner emits one character and advances) or returns the replacement text
(or collected items) together with the remainder of the input after the match.
Fuel bounded by the input length makes every scanner a structural recursion,
so all definitions compute in the kernel.
-/

/-! ### Character classes (JavaScript regex semantics) -/

/-- JavaScript `\s` (also the character set removed by `String.trim`). -/
def isJsSpace (c : Char) : Bool :=
  let n := c.toNat
  n = 32 || n = 9 || n = 10 || n = 13 || n = 11 || n = 12 ||
  n = 160 || n = 5760 || (8192 ≤ n && n ≤ 8202) ||
  n = 8232 || n = 8233 || n = 8239 || n = 8287 || n = 12288 || n = 65279

/-- JavaScript line terminators: positions after which multiline `^` matches
and before which multiline `$` matches. -/
def isLineTerm (c : Char) : Bool :=
  let n := c.toNat
  n = 10 || n = 13 || n = 8232 || n = 8233

/-- JavaScript `\w`: ASCII letters, digits and underscore. -/
def isWordChar (c : Char) : Bool :=
  let n := c.toNat
  (65 ≤ n && n ≤ 90) || (97 ≤ n && n ≤ 122) || (48 ≤ n && n ≤ 57) || n = 95

/-- JavaScript `\d`: ASCII digits. -/
def isAsciiDigit (c : Char) : Bool :=
  let n := c.toNat
  48 ≤ n && n ≤ 57

/-- ASCII letters, either case (the class `[a-z]` under the `i` flag). -/
def isAsciiLetter (c : Char) : Bool :=
  let n := c.toNat
  (65 ≤ n && n ≤ 90) || (97 ≤ n && n ≤ 122)

/-- Simple lower-casing used for the `i` regex flag: ASCII letters plus the
accented `Í` of "capítulo", the only non-ASCII letter in the source patterns. -/
def lcChar (c : Char) : Char :=
  let n := c.toNat
  if 65 ≤ n && n ≤ 90 then Char.ofNat (n + 32)
  else if n = 205 then Char.ofNat 237
  else c

/-- Case-insensitive character comparison (`i` flag). -/
def eqCI (a b : Char) : Bool :=
  lcChar a = lcChar b

/-- Case-insensitive "the pattern is a prefix of the text". -/
def startsCI : List Char → List Char → Bool
  | [], _ => true
  | _ :: _, [] => false
  | p :: ps, c :: cs => eqCI p c && startsCI ps cs

/-- Case-insensitive "the pattern occurs somewhere in the text"
(only used with non-empty patterns). -/
def occursCI (pat : List Char) : List Char → Bool
  | [] => startsCI pat []
  | c :: cs => startsCI pat (c :: cs) || occursCI pat cs

/-- Index of the first case-insensitive occurrence of the pattern. -/
def findCI (pat : List Char) : List Char → Option Nat
  | [] => if startsCI pat [] then some 0 else none
  | c :: cs =>
    if startsCI pat (c :: cs) then some 0
    else (findCI pat cs).map (· + 1)

/-! ### Generic regex-pass scanners

Each JavaScript `string.replace(re, r)` pass (with the `g` flag) is modelled by
`runRepl f`, where the matcher `f` receives the text from the current scan
position onward and either fails (`none`: the scanner copies one character and
advances — exactly how the regex engine retries at the next index) or returns
the replacement text and the remainder after the match.  `runMLFrom` is the
variant for multiline (`m` flag) patterns: the matcher additionally receives
whether the current position is at a line start.  `runCollect` models a
`while (re.exec(s))` collection loop.  All matchers consume at least one
character on success, so fuel equal to the input length is always enough. -/

def scanRepl (f : List Char → Option (List Char × List Char)) :
    Nat → List Char → List Char
  | 0, _ => []
  | _ + 1, [] => []
  | fuel + 1, c :: rest =>
    match f (c :: rest) with
    | some (rep, rest') =>
      if rest'.length ≤ rest.length then rep ++ scanRepl f fuel rest'
      else c :: scanRepl f fuel rest
    | none => c :: scanRepl f fuel rest

def runRepl (f : List Char → Option (List Char × List Char)) (l : List Char) :
    List Char :=
  scanRepl f l.length l

def scanReplML (f : Bool → List Char → Option (List Char × Bool × List Char)) :
    Nat → Bool → List Char → List Char
  | 0, _, _ => []
  | _ + 1, _, [] => []
  | fuel + 1, atLS, c :: rest =>
    match f atLS (c :: rest) with
    | some (rep, b', rest') =>
      if rest'.length ≤ rest.length then rep ++ scanReplML f fuel b' rest'
      else c :: scanReplML f fuel (isLineTerm c) rest
    | none => c :: scanReplML f fuel (isLineTerm c) rest

def runMLFrom (f : Bool → List Char → Option (List Char × Bool × List Char))
    (atLS : Bool) (l : List Char) : List Char :=
  scanReplML f l.length atLS l

def runReplML (f : Bool → List Char → Option (List Char × Bool × List Char))
    (l : List Char) : List Char :=
  runMLFrom f true l

def scanCollect (f : List Char → Option (List α × List Char)) :
    Nat → List Char → List α
  | 0, _ => []
  | _ + 1, [] => []
  | fuel + 1, c :: rest =>
    match f (c :: rest) with
    | some (items, rest') =>
      if rest'.length ≤ rest.length then items ++ scanCollect f fuel rest'
      else scanCollect f fuel rest
    | none => scanCollect f fuel rest

def runCollect (f : List Char → Option (List α × List Char)) (l : List Char) :
    List α :=
  scanCollect f l.length l

theorem scanRepl_fuel {f : List Char → Option (List Char × List Char)} :
    ∀ fuel₁ fuel₂ l, l.length ≤ fuel₁ → l.length ≤ fuel₂ →
      scanRepl f fuel₁ l = scanRepl f fuel₂ l := by
  intro fuel₁
  induction fuel₁ with
  | zero =>
    intro fuel₂ l h1 _
    have : l = [] := List.length_eq_zero.mp (Nat.le_zero.mp h1)
    subst this
    cases fuel₂ <;> rfl
  | succ n ih =>
    intro fuel₂ l h1 h2
    cases l with
    | nil => cases fuel₂ <;> rfl
    | cons c rest =>
      cases fuel₂ with
      | zero => exact absurd h2 (by simp)
      | succ m =>
        have hr : rest.length ≤ n := by
          simpa [Nat.succ_le_succ_iff] using h1
        have hr2 : rest.length ≤ m := by
          simpa [Nat.succ_le_succ_iff] using h2
        cases hmatch : f (c :: rest) with
        | none =>
          simp only [scanRepl, hmatch]
          rw [ih m rest hr hr2]
        | some pr =>
          obtain ⟨rep, rest'⟩ := pr
          simp only [scanRepl, hmatch]
          by_cases hg : rest'.length ≤ rest.length
          · simp only [if_pos hg]
            rw [ih m rest' (Nat.le_trans hg hr) (Nat.le_trans hg hr2)]
          · simp only [if_neg hg]
            rw [ih m rest hr hr2]

theorem runRepl_nil (f : List Char → Option (List Char × List Char)) :
    runRepl f [] = [] := rfl

theorem runRepl_cons_none {f : List Char → Option (List Char × List Char)}
    {c : Char} {rest : List Char} (h : f (c :: rest) = none) :
    runRepl f (c :: rest) = c :: runRepl f rest := by
  unfold runRepl
  simp only [List.length_cons, scanRepl, h]

theorem runRepl_cons_some {f : List Char → Option (List Char × List Char)}
    {c : Char} {rest rep rest' : List Char}
    (h : f (c :: rest) = some (rep, rest')) (hlen : rest'.length ≤ rest.length) :
    runRepl f (c :: rest) = rep ++ runRepl f rest' := by
  unfold runRepl
  simp only [List.length_cons, scanRepl, h, if_pos hlen]
  rw [scanRepl_fuel rest.length rest'.length rest' hlen (Nat.le_refl _)]

/-- A replace pass leaves the text unchanged when the matcher fails on every
suffix whose characters all satisfy a (suffix-closed) character predicate. -/
theorem runRepl_id_of_pred {f : List Char → Option (List Char × List Char)}
    (p : Char → Bool)
    (hnone : ∀ c r, (∀ x ∈ c :: r, p x = true) → f (c :: r) = none) :
    ∀ l, (∀ x ∈ l, p x = true) → runRepl f l = l := by
  intro l
  induction l with
  | nil => intro _; rfl
  | cons c rest ih =>
    intro hall
    rw [runRepl_cons_none (hnone c rest hall)]
    rw [ih (fun x hx => hall x (List.mem_cons_of_mem c hx))]

theorem scanReplML_fuel {f : Bool → List Char → Option (List Char × Bool × List Char)} :
    ∀ fuel₁ fuel₂ b l, l.length ≤ fuel₁ → l.length ≤ fuel₂ →
      scanReplML f fuel₁ b l = scanReplML f fuel₂ b l := by
  intro fuel₁
  induction fuel₁ with
  | zero =>
    intro fuel₂ b l h1 _
    have : l = [] := List.length_eq_zero.mp (Nat.le_zero.mp h1)
    subst this
    cases fuel₂ <;> rfl
  | succ n ih =>
    intro fuel₂ b l h1 h2
    cases l with
    | nil => cases fuel₂ <;> rfl
    | cons c rest =>
      cases fuel₂ with
      | zero => exact absurd h2 (by simp)
      | succ m =>
        have hr : rest.length ≤ n := by
          simpa [Nat.succ_le_succ_iff] using h1
        have hr2 : rest.length ≤ m := by
          simpa [Nat.succ_le_succ_iff] using h2
        cases hmatch : f b (c :: rest) with
        | none =>
          simp only [scanReplML, hmatch]
          rw [ih m (isLineTerm c) rest hr hr2]
        | some pr =>
          obtain ⟨rep, b', rest'⟩ := pr
          simp only [scanReplML, hmatch]
          by_cases hg : rest'.length ≤ rest.length
          · simp only [if_pos hg]
            rw [ih m b' rest' (Nat.le_trans hg hr) (Nat.le_trans hg hr2)]
          · simp only [if_neg hg]
            rw [ih m (isLineTerm c) rest hr hr2]

theorem runMLFrom_nil (f : Bool → List Char → Option (List Char × Bool × List Char))
    (b : Bool) : runMLFrom f b [] = [] := rfl

theorem runMLFrom_cons_none {f : Bool → List Char → Option (List Char × Bool × List Char)}
    {b : Bool} {c : Char} {rest : List Char} (h : f b (c :: rest) = none) :
    runMLFrom f b (c :: rest) = c :: runMLFrom f (isLineTerm c) rest := by
  unfold runMLFrom
  simp only [List.length_cons, scanReplML, h]

theorem runMLFrom_cons_some {f : Bool → List Char → Option (List Char × Bool × List Char)}
    {b b' : Bool} {c : Char} {rest rep rest' : List Char}
    (h : f b (c :: rest) = some (rep, b', rest'))
    (hlen : rest'.length ≤ rest.length) :
    runMLFrom f b (c :: rest) = rep ++ runMLFrom f b' rest' := by
  unfold runMLFrom
  simp only [List.length_cons, scanReplML, h, if_pos hlen]
  rw [scanReplML_fuel rest.length rest'.length b' rest' hlen (Nat.le_refl _)]

theorem runMLFrom_id_of_pred {f : Bool → List Char → Option (List Char × Bool × List Char)}
    (p : Char → Bool)
    (hnone : ∀ b c r, (∀ x ∈ c :: r, p x = true) → f b (c :: r) = none) :
    ∀ l b, (∀ x ∈ l, p x = true) → runMLFrom f b l = l := by
  intro l
  induction l with
  | nil => intro _ _; rfl
  | cons c rest ih =>
    intro b hall
    rw [runMLFrom_cons_none (hnone b c rest hall)]
    rw [ih (isLineTerm c) (fun x hx => hall x (List.mem_cons_of_mem c hx))]

theorem scanCollect_fuel {α : Type} {f : List Char → Option (List α × List Char)} :
    ∀ fuel₁ fuel₂ l, l.length ≤ fuel₁ → l.length ≤ fuel₂ →
      scanCollect f fuel₁ l = scanCollect f fuel₂ l := by
  intro fuel₁
  induction fuel₁ with
  | zero =>
    intro fuel₂ l h1 _
    have : l = [] := List.length_eq_zero.mp (Nat.le_zero.mp h1)
    subst this
    cases fuel₂ <;> rfl
  | succ n ih =>
    intro fuel₂ l h1 h2
    cases l with
    | nil => cases fuel₂ <;> rfl
    | cons c rest =>
      cases fuel₂ with
      | zero => exact absurd h2 (by simp)
      | succ m =>
        have hr : rest.length ≤ n := by
          simpa [Nat.succ_le_succ_iff] using h1
        have hr2 : rest.length ≤ m := by
          simpa [Nat.succ_le_succ_iff] using h2
        cases hmatch : f (c :: rest) with
        | none =>
          simp only [scanCollect, hmatch]
          rw [ih m rest hr hr2]
        | some pr =>
          obtain ⟨items, rest'⟩ := pr
          simp only [scanCollect, hmatch]
          by_cases hg : rest'.length ≤ rest.length
          · simp only [if_pos hg]
            rw [ih m rest' (Nat.le_trans hg hr) (Nat.le_trans hg hr2)]
          · simp only [if_neg hg]
            rw [ih m rest hr hr2]

theorem runCollect_nil {α : Type} (f : List Char → Option (List α × List Char)) :
    runCollect f [] = [] := rfl

theorem runCollect_cons_none {α : Type} {f : List Char → Option (List α × List Char)}
    {c : Char} {rest : List Char} (h : f (c :: rest) = none) :
    runCollect f (c :: rest) = runCollect f rest := by
  unfold runCollect
  simp only [List.length_cons, scanCollect, h]

theorem runCollect_cons_some {α : Type} {f : List Char → Option (List α × List Char)}
    {c : Char} {rest rest' : List Char} {items : List α}
    (h : f (c :: rest) = some (items, rest')) (hlen : rest'.length ≤ rest.length) :
    runCollect f (c :: rest) = items ++ runCollect f rest' := by
  unfold runCollect
  simp only [List.length_cons, scanCollect, h, if_pos hlen]
  rw [scanCollect_fuel rest.length rest'.length rest' hlen (Nat.le_refl _)]

theorem runCollect_nil_of_pred {α : Type} {f : List Char → Option (List α × List Char)}
    (p : Char → Bool)
    (hnone : ∀ c r, (∀ x ∈ c :: r, p x = true) → f (c :: r) = none) :
    ∀ l, (∀ x ∈ l, p x = true) → runCollect f l = [] := by
  intro l
  induction l with
  | nil => intro _; rfl
  | cons c rest ih =>
    intro hall
    rw [runCollect_cons_none (hnone c rest hall)]
    exact ih (fun x hx => hall x (List.mem_cons_of_mem c hx))

/-! ### Small list helpers -/

theorem takeWhile_all_append {p : Char → Bool} (xs : List Char) (y : Char)
    (ys : List Char) (hxs : ∀ x ∈ xs, p x = true) (hy : p y = false) :
    (xs ++ y :: ys).takeWhile p = xs ∧ (xs ++ y :: ys).dropWhile p = y :: ys := by
  induction xs with
  | nil =>
    constructor
    · simp [List.takeWhile_cons, hy]
    · simp [List.dropWhile_cons, hy]
  | cons x xs ih =>
    have hx : p x = true := hxs x (List.mem_cons_self x xs)
    have hrest : ∀ z ∈ xs, p z = true := fun z hz => hxs z (List.mem_cons_of_mem x hz)
    obtain ⟨h1, h2⟩ := ih hrest
    constructor
    · simp only [List.cons_append, List.takeWhile_cons, hx, if_pos rfl]
      simp [h1]
    · simp only [List.cons_append, List.dropWhile_cons, hx, if_pos rfl]
      exact h2

theorem takeWhile_all_eq {p : Char → Bool} (xs : List Char)
    (hxs : ∀ x ∈ xs, p x = true) :
    xs.takeWhile p = xs ∧ xs.dropWhile p = [] := by
  constructor
  · exact List.takeWhile_eq_self_iff.mpr hxs
  · exact List.dropWhile_eq_nil_iff.mpr hxs

/-! ### Text normalizer (src text-normalizer service)

Each regex of `ARTIFACT_PATTERNS` and of the whitespace / HTML passes is a
deterministic pattern; its matcher below consumes exactly the JavaScript match
and returns the text after it.  Multiline matchers return `false` as the new
at-line-start flag because no matched text of these patterns ends in a line
terminator (`$` is zero-width). -/

/-- JavaScript `String.prototype.trim`. -/
def jsTrim (l : List Char) : List Char :=
  ((l.dropWhile isJsSpace).reverse.dropWhile isJsSpace).reverse

/-- True when the position right after a multiline match satisfies `$`. -/
def lineEnd (l : List Char) : Bool :=
  match l with
  | [] => true
  | c :: _ => isLineTerm c

/-- Case-insensitive literal consumption: `some rest` when the pattern is a
prefix of the text. -/
def dropCIOpt (pat : List Char) (l : List Char) : Option (List Char) :=
  if startsCI pat l then some (l.drop pat.length) else none

/-- Matcher for `/(\w+)-\s*\n\s*(\w+)/g` (`handleHyphenation`): the whitespace
run after the hyphen must contain a newline, and the replacement `$1$2` drops
the hyphen and the whitespace. -/
def hyphenF (l : List Char) : Option (List Char × List Char) :=
  let w1 := l.takeWhile isWordChar
  if w1.isEmpty then none
  else
    match l.dropWhile isWordChar with
    | c2 :: r2 =>
      if c2 == '-' then
        if (r2.takeWhile isJsSpace).contains '\n' then
          let r3 := r2.dropWhile isJsSpace
          let w2 := r3.takeWhile isWordChar
          if w2.isEmpty then none
          else some (w1 ++ w2, r3.dropWhile isWordChar)
        else none
      else none
    | [] => none

/-- Matcher for a case-sensitive literal pattern (e.g. `/\r\n/g`). -/
def litF (pat rep : List Char) (l : List Char) : Option (List Char × List Char) :=
  if pat.isPrefixOf l && !pat.isEmpty then some (rep, l.drop pat.length) else none

/-- Matcher for a case-insensitive literal pattern (`gi` flag). -/
def litCIF (pat rep : List Char) (l : List Char) : Option (List Char × List Char) :=
  if startsCI pat l && !pat.isEmpty then some (rep, l.drop pat.length) else none

/-- Matcher for `/\n{3,}/g`. -/
def nlRunF (l : List Char) : Option (List Char × List Char) :=
  match l with
  | '\n' :: _ =>
    let run := l.takeWhile (fun c => c == '\n')
    if 3 ≤ run.length then some (['\n', '\n'], l.dropWhile (fun c => c == '\n'))
    else none
  | _ => none

/-- Matcher for `/[ \t]+/g`. -/
def hwsF (l : List Char) : Option (List Char × List Char) :=
  match l with
  | c :: _ =>
    if c == ' ' || c == '\t' then
      some ([' '], l.dropWhile (fun x => x == ' ' || x == '\t'))
    else none
  | [] => none

/-- Digits part `\d{1,4}$` of the page-number patterns: one to four digits
followed by a line end (a five-digit run never matches). -/
def digits14End (l : List Char) : Option (List Char) :=
  let ds := l.takeWhile isAsciiDigit
  if 1 ≤ ds.length ∧ ds.length ≤ 4 then
    let r := l.dropWhile isAsciiDigit
    if lineEnd r then some r else none
  else none

/-- Matcher for `/^(Page\s+)?\d{1,4}$/gim`. -/
def pageNumF (atLS : Bool) (l : List Char) :
    Option (List Char × Bool × List Char) :=
  if !atLS then none
  else
    let grouped :=
      match dropCIOpt ['p', 'a', 'g', 'e'] l with
      | some r1 =>
        if (r1.takeWhile isJsSpace).isEmpty then none
        else digits14End (r1.dropWhile isJsSpace)
      | none => none
    match grouped with
    | some r => some ([], false, r)
    | none =>
      match digits14End l with
      | some r => some ([], false, r)
      | none => none

def isDash (c : Char) : Bool :=
  c == '-' || c == '—' || c == '–'

/-- Matcher for `/^[-—–]\s*\d{1,4}\s*[-—–]$/gm`. -/
def dashNumF (atLS : Bool) (l : List Char) :
    Option (List Char × Bool × List Char) :=
  if !atLS then none
  else
    match l with
    | c :: r =>
      if isDash c then
        let r1 := r.dropWhile isJsSpace
        let ds := r1.takeWhile isAsciiDigit
        if 1 ≤ ds.length ∧ ds.length ≤ 4 then
          match (r1.dropWhile isAsciiDigit).dropWhile isJsSpace with
          | d :: r3 =>
            if isDash d && lineEnd r3 then some ([], false, r3) else none
          | [] => none
        else none
      else none
    | [] => none

/-- Matcher for `/^\[\d{1,4}\]$/gm`. -/
def brackNumF (atLS : Bool) (l : List Char) :
    Option (List Char × Bool × List Char) :=
  if !atLS then none
  else
    match l with
    | c :: r =>
      if c != '[' then none
      else
        let ds := r.takeWhile isAsciiDigit
        if 1 ≤ ds.length ∧ ds.length ≤ 4 then
          match r.dropWhile isAsciiDigit with
          | ']' :: r3 => if lineEnd r3 then some ([], false, r3) else none
          | _ => none
        else none
    | [] => none

/-- Matcher for `/^\(\d{1,4}\)$/gm`. -/
def parenNumF (atLS : Bool) (l : List Char) :
    Option (List Char × Bool × List Char) :=
  if !atLS then none
  else
    match l with
    | c :: r =>
      if c != '(' then none
      else
        let ds := r.takeWhile isAsciiDigit
        if 1 ≤ ds.length ∧ ds.length ≤ 4 then
          match r.dropWhile isAsciiDigit with
          | ')' :: r3 => if lineEnd r3 then some ([], false, r3) else none
          | _ => none
        else none
    | [] => none

/-- Matcher for `/^p\.\s*\d{1,4}$/gim`. -/
def pDotNumF (atLS : Bool) (l : List Char) :
    Option (List Char × Bool × List Char) :=
  if !atLS then none
  else
    match dropCIOpt ['p', '.'] l with
    | some r1 =>
      match digits14End (r1.dropWhile isJsSpace) with
      | some r => some ([], false, r)
      | none => none
    | none => none

/-- Tail `\s*\d+$` shared by the chapter-word alternatives. -/
def starDigitsEnd (l : List Char) : Option (List Char) :=
  let r1 := l.dropWhile isJsSpace
  if (r1.takeWhile isAsciiDigit).isEmpty then none
  else
    let r2 := r1.dropWhile isAsciiDigit
    if lineEnd r2 then some r2 else none

/-- Tail `\s+\d+$` of the part/section patterns. -/
def plusDigitsEnd (l : List Char) : Option (List Char) :=
  if (l.takeWhile isJsSpace).isEmpty then none
  else starDigitsEnd (l.dropWhile isJsSpace)

/-- Matcher for `/^(chapter|capítulo|cap\.?)\s*\d+$/gim`; the alternatives are
attempted in source order. -/
def chapterNumF (atLS : Bool) (l : List Char) :
    Option (List Char × Bool × List Char) :=
  if !atLS then none
  else
    let alt1 :=
      match dropCIOpt ['c', 'h', 'a', 'p', 't', 'e', 'r'] l with
      | some r => starDigitsEnd r
      | none => none
    let alt2 :=
      match dropCIOpt ['c', 'a', 'p', 'í', 't', 'u', 'l', 'o'] l with
      | some r => starDigitsEnd r
      | none => none
    let alt3 :=
      match dropCIOpt ['c', 'a', 'p'] l with
      | some r =>
        match r with
        | c2 :: r2 => if c2 == '.' then starDigitsEnd r2 else starDigitsEnd (c2 :: r2)
        | [] => starDigitsEnd []
      | none => none
    match alt1 with
    | some r => some ([], false, r)
    | none =>
      match alt2 with
      | some r => some ([], false, r)
      | none =>
        match alt3 with
        | some r => some ([], false, r)
        | none => none

/-- Characters of the class `[ivxlcdm]` under the `i` flag. -/
def isRomanCI (c : Char) : Bool :=
  let n := c.toNat
  n = 105 || n = 118 || n = 120 || n = 108 || n = 99 || n = 100 || n = 109 ||
  n = 73 || n = 86 || n = 88 || n = 76 || n = 67 || n = 68 || n = 77

/-- Matcher for `/^[ivxlcdm]+$/gim` — any line made only of these letters is
removed, whether or not it is a well-formed Roman numeral. -/
def romanF (atLS : Bool) (l : List Char) :
    Option (List Char × Bool × List Char) :=
  if !atLS then none
  else
    if (l.takeWhile isRomanCI).isEmpty then none
    else
      let r := l.dropWhile isRomanCI
      if lineEnd r then some ([], false, r) else none

/-- Matcher for `/^part\s+\d+$/gim`. -/
def partNumF (atLS : Bool) (l : List Char) :
    Option (List Char × Bool × List Char) :=
  if !atLS then none
  else
    match dropCIOpt ['p', 'a', 'r', 't'] l with
    | some r =>
      match plusDigitsEnd r with
      | some r2 => some ([], false, r2)
      | none => none
    | none => none

/-- Matcher for `/^section\s+\d+$/gim`. -/
def sectionNumF (atLS : Bool) (l : List Char) :
    Option (List Char × Bool × List Char) :=
  if !atLS then none
  else
    match dropCIOpt ['s', 'e', 'c', 't', 'i', 'o', 'n'] l with
    | some r =>
      match plusDigitsEnd r with
      | some r2 => some ([], false, r2)
      | none => none
    | none => none

/-- Matcher for `/^(copyright|©).*$/gim`: consumes the rest of the line. -/
def copyrightF (atLS : Bool) (l : List Char) :
    Option (List Char × Bool × List Char) :=
  if !atLS then none
  else
    match dropCIOpt ['c', 'o', 'p', 'y', 'r', 'i', 'g', 'h', 't'] l with
    | some r => some ([], false, r.dropWhile (fun c => !isLineTerm c))
    | none =>
      match l with
      | '©' :: r => some ([], false, r.dropWhile (fun c => !isLineTerm c))
      | _ => none

/-- Matcher for `/^all rights reserved.*$/gim`. -/
def rightsF (atLS : Bool) (l : List Char) :
    Option (List Char × Bool × List Char) :=
  if !atLS then none
  else
    match dropCIOpt
        ['a', 'l', 'l', ' ', 'r', 'i', 'g', 'h', 't', 's', ' ',
         'r', 'e', 's', 'e', 'r', 'v', 'e', 'd'] l with
    | some r => some ([], false, r.dropWhile (fun c => !isLineTerm c))
    | none => none

/-- Class `[\s:-]` of the ISBN pattern. -/
def isIsbnA (c : Char) : Bool :=
  isJsSpace c || c == ':' || c == '-'

/-- Class `[\d-]` of the ISBN pattern. -/
def isIsbnB (c : Char) : Bool :=
  isAsciiDigit c || c == '-'

/-- One backtracking attempt of `[\s:-]*[\d-]+$` with the starred class
holding exactly `k` characters. -/
def isbnTryAt (rest : List Char) (k : Nat) : Option (List Char) :=
  let tk := rest.drop k
  if (tk.takeWhile isIsbnB).isEmpty then none
  else
    let r2 := tk.dropWhile isIsbnB
    if lineEnd r2 then some r2 else none

/-- Greedy-first descent over the possible lengths of `[\s:-]*`. -/
def isbnDescend (rest : List Char) : Nat → Option (List Char)
  | 0 => isbnTryAt rest 0
  | k + 1 =>
    match isbnTryAt rest (k + 1) with
    | some r => some r
    | none => isbnDescend rest k

/-- Matcher for `/^isbn[\s:-]*[\d-]+$/gim`. -/
def isbnF (atLS : Bool) (l : List Char) :
    Option (List Char × Bool × List Char) :=
  if !atLS then none
  else
    match dropCIOpt ['i', 's', 'b', 'n'] l with
    | some r =>
      match isbnDescend r (r.takeWhile isIsbnA).length with
      | some r2 => some ([], false, r2)
      | none => none
    | none => none

/-- Stage 1 of `normalizeText`: `handleHyphenation`. -/
def handleHyphenation (l : List Char) : List Char :=
  runRepl hyphenF l

/-- Stage 2: `removePageNumbers`, the five patterns applied in source order. -/
def removePageNumbers (l : List Char) : List Char :=
  runReplML pDotNumF
    (runReplML parenNumF
      (runReplML brackNumF
        (runReplML dashNumF
          (runReplML pageNumF l))))

/-- Stage 3: `removeChapterMarkers`, the four patterns in source order. -/
def removeChapterMarkers (l : List Char) : List Char :=
  runReplML sectionNumF
    (runReplML partNumF
      (runReplML romanF
        (runReplML chapterNumF l)))

/-- Stage 4: `removeHeaders`, the three patterns in source order. -/
def removeHeaders (l : List Char) : List Char :=
  runReplML isbnF
    (runReplML rightsF
      (runReplML copyrightF l))

/-- Stage 5: `collapseWhitespace`, the five replaces then `trim`. -/
def collapseWhitespace (l : List Char) : List Char :=
  jsTrim
    (runRepl (litF [' ', '\n'] ['\n'])
      (runRepl (litF ['\n', ' '] ['\n'])
        (runRepl hwsF
          (runRepl nlRunF
            (runRepl (litF ['\r', '\n'] ['\n']) l)))))

structure NormalizationOptions where
  removePageNumbers : Bool
  removeChapterMarkers : Bool
  removeHeaders : Bool
  collapseWhitespace : Bool
  handleHyphenation : Bool
deriving DecidableEq

def DEFAULT_OPTIONS : NormalizationOptions :=
  { removePageNumbers := true
    removeChapterMarkers := true
    removeHeaders := true
    collapseWhitespace := true
    handleHyphenation := true }

/-- Main normalization function (`normalizeText`), stages in source order. -/
def normalizeText (l : List Char) (options : NormalizationOptions) : List Char :=
  let r0 := l
  let r1 := if options.handleHyphenation then handleHyphenation r0 else r0
  let r2 := if options.removePageNumbers then removePageNumbers r1 else r1
  let r3 := if options.removeChapterMarkers then removeChapterMarkers r2 else r2
  let r4 := if options.removeHeaders then removeHeaders r3 else r3
  if options.collapseWhitespace then collapseWhitespace r4 else r4

/-- Tokenizer (`tokenizeWords`): split on whitespace runs, drop empty tokens,
drop purely numeric tokens. -/
def tokenizeWords (l : List Char) : List (List Char) :=
  ((List.splitOnP isJsSpace l).filter (fun w => !w.isEmpty)).filter
    (fun w => !w.all isAsciiDigit)

/-- Line test `/^[\d\[\]()—–-]+$/` of `extractTitle`. -/
def isTitleJunk (line : List Char) : Bool :=
  !line.isEmpty &&
    line.all (fun c =>
      isAsciiDigit c || c == '[' || c == ']' || c == '(' || c == ')' ||
      c == '—' || c == '–' || c == '-')

/-- Line test `/^(page|chapter|copyright)/i` of `extractTitle`. -/
def startsPageChapCopy (line : List Char) : Bool :=
  startsCI ['p', 'a', 'g', 'e'] line ||
  startsCI ['c', 'h', 'a', 'p', 't', 'e', 'r'] line ||
  startsCI ['c', 'o', 'p', 'y', 'r', 'i', 'g', 'h', 't'] line

def extractTitleLoop (maxLength : Nat) : List (List Char) → List Char
  | [] => ['U', 'n', 't', 'i', 't', 'l', 'e', 'd']
  | line :: rest =>
    if line.length < 3 then extractTitleLoop maxLength rest
    else if isTitleJunk line then extractTitleLoop maxLength rest
    else if startsPageChapCopy line then extractTitleLoop maxLength rest
    else if maxLength < line.length then line.take (maxLength - 3) ++ ['.', '.', '.']
    else line

/-- Title extraction (`extractTitle`): first significant trimmed line. -/
def extractTitle (l : List Char) (maxLength : Nat) : List Char :=
  extractTitleLoop maxLength
    ((List.splitOnP (fun c => c == '\n') l).map jsTrim)

/-- Matcher for the script-element pattern of `stripHtmlTags`: from
`<script\b` to the first following `</script>`, case-insensitively. -/
def scriptF (l : List Char) : Option (List Char × List Char) :=
  match l with
  | c :: r =>
    if c != '<' then none
    else if startsCI ['s', 'c', 'r', 'i', 'p', 't'] r then
      let after := r.drop 6
      let boundaryOk :=
        match after with
        | [] => true
        | a :: _ => !isWordChar a
      if boundaryOk then
        match findCI ['<', '/', 's', 'c', 'r', 'i', 'p', 't', '>'] after with
        | some i => some ([], after.drop (i + 9))
        | none => none
      else none
    else none
  | [] => none

/-- Matcher for the style-element pattern of `stripHtmlTags`. -/
def styleF (l : List Char) : Option (List Char × List Char) :=
  match l with
  | c :: r =>
    if c != '<' then none
    else if startsCI ['s', 't', 'y', 'l', 'e'] r then
      let after := r.drop 5
      let boundaryOk :=
        match after with
        | [] => true
        | a :: _ => !isWordChar a
      if boundaryOk then
        match findCI ['<', '/', 's', 't', 'y', 'l', 'e', '>'] after with
        | some i => some ([], after.drop (i + 8))
        | none => none
      else none
    else none
  | [] => none

/-- Matcher for `/<[^>]+>/g`: a tag with a non-empty body becomes a space. -/
def tagF (l : List Char) : Option (List Char × List Char) :=
  match l with
  | c :: r =>
    if c != '<' then none
    else if (r.takeWhile (fun x => x != '>')).isEmpty then none
    else
      match r.dropWhile (fun x => x != '>') with
      | '>' :: r2 => some ([' '], r2)
      | _ => none
  | [] => none

/-- Matcher for `/&[a-z]+;/gi`: any other alphabetic entity becomes a space. -/
def ampEntF (l : List Char) : Option (List Char × List Char) :=
  match l with
  | c :: r =>
    if c != '&' then none
    else if (r.takeWhile isAsciiLetter).isEmpty then none
    else
      match r.dropWhile isAsciiLetter with
      | ';' :: r2 => some ([' '], r2)
      | _ => none
  | [] => none

/-- The apostrophe character decoded from the entity `&#39;`. -/
def aposChar : Char := Char.ofNat 39

/-- HTML stripper (`stripHtmlTags`): scripts and styles removed with their
content, remaining tags replaced by one space, six named entities decoded,
any other alphabetic entity collapsed to a space — all in source order. -/
def stripHtmlTags (l : List Char) : List Char :=
  runRepl ampEntF
    (runRepl (litCIF ['&', '#', '3', '9', ';'] [aposChar])
      (runRepl (litCIF ['&', 'q', 'u', 'o', 't', ';'] ['"'])
        (runRepl (litCIF ['&', 'g', 't', ';'] ['>'])
          (runRepl (litCIF ['&', 'l', 't', ';'] ['<'])
            (runRepl (litCIF ['&', 'a', 'm', 'p', ';'] ['&'])
              (runRepl (litCIF ['&', 'n', 'b', 's', 'p', ';'] [' '])
                (runRepl tagF
                  (runRepl styleF
                    (runRepl scriptF l)))))))))

/-! ### EPUB parser (src epub-parser service)

`parseEPUB` reads the archive, resolves the OPF, manifest, spine and TOC, and
then assembles chapters and the word sequence in the spine loop.  The archive
and the regex-extracted tables are modelled as abstract lookup functions
(`manifest`, `zipf`, `toc`): the loop below is the literal translation of the
source loop over the spine, including the JavaScript falsiness checks on the
manifest href, the chapter content and the TOC title. -/

structure EPUBChapter where
  title : List Char
  startIndex : Nat
deriving DecidableEq

/-- ASCII lower-casing (JavaScript `toLowerCase` restricted to the ASCII
range, which is all `generateChapterTitle` needs for its `includes` checks). -/
def lowerAscii (l : List Char) : List Char :=
  l.map (fun c => if 65 ≤ c.toNat && c.toNat ≤ 90 then Char.ofNat (c.toNat + 32) else c)

def upperAsciiChar (c : Char) : Char :=
  if 97 ≤ c.toNat && c.toNat ≤ 122 then Char.ofNat (c.toNat - 32) else c

/-- JavaScript `String.prototype.includes` (substring occurrence). -/
def containsSub (pat : List Char) : List Char → Bool
  | [] => pat.isPrefixOf []
  | c :: cs => pat.isPrefixOf (c :: cs) || containsSub pat cs

/-- Drop a final `.ext` (the regex `\.[^.]+$`: a dot followed by one or more
non-dot characters at the end of the string). -/
def dropExtension (l : List Char) : List Char :=
  let revExt := l.reverse.takeWhile (fun c => c != '.')
  match l.reverse.drop revExt.length with
  | '.' :: _ =>
    if revExt.isEmpty then l else l.take (l.length - revExt.length - 1)
  | _ => l

/-- Source `generateChapterTitle`: derive a title from the href, falling back
to "Chapter n" with the 1-based count of chapters accepted so far. -/
def generateChapterTitle (href : List Char) (index : Nat) : List Char :=
  let segs := List.splitOnP (fun c => c == '/') href
  let filename :=
    match segs.getLast? with
    | some s => if s.isEmpty then href else s
    | none => href
  let name := (dropExtension filename).map
    (fun c => if c == '-' || c == '_' then ' ' else c)
  let lname := lowerAscii name
  if containsSub ['c', 'h', 'a', 'p', 't', 'e', 'r'] lname ||
      containsSub ['c', 'h', 'a', 'p'] lname then
    match name with
    | c :: rest => upperAsciiChar c :: rest
    | [] => []
  else
    ['C', 'h', 'a', 'p', 't', 'e', 'r', ' '] ++ (Nat.repr index).data

/-- The tokens a chapter file contributes: strip HTML, normalize with the
default options, tokenize — exactly the spine-loop computation. -/
def chapterRawWords (content : List Char) : List (List Char) :=
  tokenizeWords (normalizeText (stripHtmlTags content) DEFAULT_OPTIONS)

/-- The spine loop of `parseEPUB`: walk the spine ids in order, resolve each
href through the manifest and the archive, and accept a chapter only when it
yields more than 10 tokens, recording `startIndex` as the cumulative word
count at acceptance time. -/
def spineFold (manifest zipf toc : List Char → Option (List Char))
    (opfDir : List Char) :
    List (List Char) → List EPUBChapter → List (List Char) →
      List EPUBChapter × List (List Char)
  | [], chapters, allWords => (chapters, allWords)
  | id :: rest, chapters, allWords =>
    match manifest id with
    | none => spineFold manifest zipf toc opfDir rest chapters allWords
    | some href =>
      if href.isEmpty then spineFold manifest zipf toc opfDir rest chapters allWords
      else
        match zipf (opfDir ++ href) with
        | none => spineFold manifest zipf toc opfDir rest chapters allWords
        | some content =>
          if content.isEmpty then
            spineFold manifest zipf toc opfDir rest chapters allWords
          else
            let chapterTitle :=
              match toc href with
              | some t =>
                if t.isEmpty then generateChapterTitle href (chapters.length + 1)
                else t
              | none => generateChapterTitle href (chapters.length + 1)
            let chapterWords := chapterRawWords content
            if 10 < chapterWords.length then
              spineFold manifest zipf toc opfDir rest
                (chapters ++ [{ title := chapterTitle, startIndex := allWords.length }])
                (allWords ++ chapterWords)
            else spineFold manifest zipf toc opfDir rest chapters allWords

/-- Chapter/word assembly of `parseEPUB`: the spine loop starting from empty
accumulators, followed by the synthetic "Start" fallback. -/
def parseEPUBChapters (manifest zipf toc : List Char → Option (List Char))
    (opfDir : List Char) (spine : List (List Char)) :
    List EPUBChapter × List (List Char) :=
  let res := spineFold manifest zipf toc opfDir spine [] []
  if res.1.isEmpty && !res.2.isEmpty then
    ([{ title := ['S', 't', 'a', 'r', 't'], startIndex := 0 }], res.2)
  else res

/-- The tokens of one spine entry when the entry resolves to non-empty
content, `none` when the loop skips it. -/
def spineEntryWords (manifest zipf : List Char → Option (List Char))
    (opfDir : List Char) (id : List Char) : Option (List (List Char)) :=
  match manifest id with
  | none => none
  | some href =>
    if href.isEmpty then none
    else
      match zipf (opfDir ++ href) with
      | none => none
      | some content =>
        if content.isEmpty then none else some (chapterRawWords content)

/-- An entry the loop discards: unresolvable, or at most 10 tokens. -/
def entryRejected (manifest zipf : List Char → Option (List Char))
    (opfDir : List Char) (id : List Char) : Bool :=
  match spineEntryWords manifest zipf opfDir id with
  | none => true
  | some w => w.length ≤ 10

/-- The number of words an entry contributes to the word sequence. -/
def entryWordCount (manifest zipf : List Char → Option (List Char))
    (opfDir : List Char) (id : List Char) : Nat :=
  match spineEntryWords manifest zipf opfDir id with
  | none => 0
  | some w => if 10 < w.length then w.length else 0

/-- The title the accept branch of the spine loop computes for an entry when
`n` chapters (including this one) have been accepted. -/
def spineEntryTitle (manifest toc : List Char → Option (List Char))
    (id : List Char) (n : Nat) : List Char :=
  match manifest id with
  | none => []
  | some href =>
    match toc href with
    | some t => if t.isEmpty then generateChapterTitle href n else t
    | none => generateChapterTitle href n

theorem spineFold_cons (manifest zipf toc : List Char → Option (List Char))
    (opfDir id : List Char) (rest : List (List Char))
    (cs : List EPUBChapter) (ws : List (List Char)) :
    spineFold manifest zipf toc opfDir (id :: rest) cs ws =
      match spineEntryWords manifest zipf opfDir id with
      | none => spineFold manifest zipf toc opfDir rest cs ws
      | some w =>
        if 10 < w.length then
          spineFold manifest zipf toc opfDir rest
            (cs ++ [{ title := spineEntryTitle manifest toc id (cs.length + 1),
                      startIndex := ws.length }])
            (ws ++ w)
        else spineFold manifest zipf toc opfDir rest cs ws := by
  simp only [spineFold, spineEntryWords, spineEntryTitle]
  cases manifest id with
  | none => rfl
  | some href =>
    by_cases hh : href.isEmpty
    · simp [hh]
    · simp only [hh, Bool.false_eq_true, if_false]
      cases zipf (opfDir ++ href) with
      | none => rfl
      | some content =>
        by_cases hc : content.isEmpty
        · simp [hc]
        · simp only [hc, Bool.false_eq_true, if_false]

theorem spineFold_ext (manifest zipf toc : List Char → Option (List Char))
    (opfDir : List Char) :
    ∀ (spine : List (List Char)) (cs : List EPUBChapter) (ws : List (List Char)),
      ∃ ext wext,
        spineFold manifest zipf toc opfDir spine cs ws = (cs ++ ext, ws ++ wext) ∧
          (ext = [] ↔ wext = []) := by
  intro spine
  induction spine with
  | nil =>
    intro cs ws
    exact ⟨[], [], by simp [spineFold], by simp⟩
  | cons id rest ih =>
    intro cs ws
    rw [spineFold_cons]
    cases hw : spineEntryWords manifest zipf opfDir id with
    | none => exact ih cs ws
    | some w =>
      by_cases hlen : 10 < w.length
      · simp only [hlen, if_pos]
        obtain ⟨ext2, wext2, heq, hiff⟩ := ih
          (cs ++ [{ title := spineEntryTitle manifest toc id (cs.length + 1),
                    startIndex := ws.length }]) (ws ++ w)
        refine ⟨{ title := spineEntryTitle manifest toc id (cs.length + 1),
                  startIndex := ws.length } :: ext2, w ++ wext2, ?_, ?_⟩
        · rw [heq]
          simp
        · have hwne : w ≠ [] := by
            intro h
            rw [h] at hlen
            simp at hlen
          constructor
          · intro h
            exact absurd h (by simp)
          · intro h
            exact absurd h (by simp [hwne])
      · simp only [hlen, if_neg, if_false]
        exact ih cs ws

theorem spineFold_head (manifest zipf toc : List Char → Option (List Char))
    (opfDir : List Char) (spine : List (List Char)) (c : EPUBChapter)
    (cs : List EPUBChapter) (ws : List (List Char)) :
    (spineFold manifest zipf toc opfDir spine (c :: cs) ws).1.head? = some c := by
  obtain ⟨ext, wext, heq, _⟩ := spineFold_ext manifest zipf toc opfDir spine (c :: cs) ws
  rw [heq]
  simp

theorem spineFold_first (manifest zipf toc : List Char → Option (List Char))
    (opfDir : List Char) :
    ∀ (spine : List (List Char)) (ws : List (List Char)) (c : EPUBChapter),
      (spineFold manifest zipf toc opfDir spine [] ws).1.head? = some c →
        c.startIndex = ws.length := by
  intro spine
  induction spine with
  | nil =>
    intro ws c h
    simp [spineFold] at h
  | cons id rest ih =>
    intro ws c h
    rw [spineFold_cons] at h
    cases hw : spineEntryWords manifest zipf opfDir id with
    | none =>
      simp only [hw] at h
      exact ih ws c h
    | some w =>
      simp only [hw] at h
      by_cases hlen : 10 < w.length
      · rw [if_pos hlen] at h
        rw [List.nil_append, spineFold_head] at h
        obtain rfl := Option.some_injective _ h
        rfl
      · rw [if_neg hlen] at h
        exact ih ws c h

theorem spineFold_inv (manifest zipf toc : List Char → Option (List Char))
    (opfDir : List Char) :
    ∀ (spine : List (List Char)) (cs : List EPUBChapter) (ws : List (List Char)),
      (∀ c ∈ cs, c.startIndex < ws.length) →
      List.Pairwise (fun a b => a.startIndex < b.startIndex) cs →
      (∀ c ∈ (spineFold manifest zipf toc opfDir spine cs ws).1,
          c.startIndex < (spineFold manifest zipf toc opfDir spine cs ws).2.length) ∧
        List.Pairwise (fun a b => a.startIndex < b.startIndex)
          (spineFold manifest zipf toc opfDir spine cs ws).1 := by
  intro spine
  induction spine with
  | nil =>
    intro cs ws hlt hpw
    simpa [spineFold] using ⟨hlt, hpw⟩
  | cons id rest ih =>
    intro cs ws hlt hpw
    rw [spineFold_cons]
    cases hw : spineEntryWords manifest zipf opfDir id with
    | none => exact ih cs ws hlt hpw
    | some w =>
      by_cases hlen : 10 < w.length
      · simp only [hlen, if_pos]
        apply ih
        · intro c hc
          rcases List.mem_append.mp hc with hc1 | hc2
          · have := hlt c hc1
            simp only [List.length_append]
            omega
          · simp only [List.mem_singleton] at hc2
            subst hc2
            simp only [List.length_append]
            omega
        · rw [List.pairwise_append]
          refine ⟨hpw, List.pairwise_singleton _ _, ?_⟩
          intro a ha b hb
          simp only [List.mem_singleton] at hb
          subst hb
          exact hlt a ha
      · simp only [hlen, if_neg, if_false]
        exact ih cs ws hlt hpw

/-- C1 — for every EPUB input for which `parseEPUB` returns a non-empty
chapter list, the first chapter's `startIndex` is 0 and the `startIndex`
values of successive chapters are strictly increasing. -/
theorem epub_chapter_startIndex_invariant
    (manifest zipf toc : List Char → Option (List Char)) (opfDir : List Char)
    (spine : List (List Char)) :
    (∀ c, (parseEPUBChapters manifest zipf toc opfDir spine).1.head? = some c →
        c.startIndex = 0) ∧
      List.Pairwise (fun a b => a.startIndex < b.startIndex)
        (parseEPUBChapters manifest zipf toc opfDir spine).1 := by
  unfold parseEPUBChapters
  by_cases hfb : (spineFold manifest zipf toc opfDir spine [] []).1.isEmpty = true ∧
      (!(spineFold manifest zipf toc opfDir spine [] []).2.isEmpty) = true
  · rw [if_pos (by simp [hfb.1, hfb.2])]
    constructor
    · intro c h
      simp only [List.head?_cons, Option.some_inj] at h
      rw [← h]
    · exact List.pairwise_singleton _ _
  · rw [if_neg (by simpa [Bool.and_eq_true] using hfb)]
    constructor
    · intro c h
      have := spineFold_first manifest zipf toc opfDir spine [] c h
      simpa using this
    · exact (spineFold_inv manifest zipf toc opfDir spine [] []
        (by intro c hc; simp at hc) List.Pairwise.nil).2

theorem spineFold_cons_skip (manifest zipf toc : List Char → Option (List Char))
    (opfDir id : List Char) (rest : List (List Char))
    (cs : List EPUBChapter) (ws : List (List Char)) (w : List (List Char))
    (h : spineEntryWords manifest zipf opfDir id = none ∨
      (spineEntryWords manifest zipf opfDir id = some w ∧ w.length ≤ 10)) :
    spineFold manifest zipf toc opfDir (id :: rest) cs ws =
      spineFold manifest zipf toc opfDir rest cs ws := by
  rw [spineFold_cons]
  rcases h with h | ⟨h, hlen⟩
  · rw [h]
  · rw [h]
    simp only
    rw [if_neg (by omega)]

theorem spineFold_cons_accept (manifest zipf toc : List Char → Option (List Char))
    (opfDir id : List Char) (rest : List (List Char))
    (cs : List EPUBChapter) (ws : List (List Char)) {w : List (List Char)}
    (h : spineEntryWords manifest zipf opfDir id = some w) (hlen : 10 < w.length) :
    spineFold manifest zipf toc opfDir (id :: rest) cs ws =
      spineFold manifest zipf toc opfDir rest
        (cs ++ [{ title := spineEntryTitle manifest toc id (cs.length + 1),
                  startIndex := ws.length }])
        (ws ++ w) := by
  rw [spineFold_cons, h]
  simp only
  rw [if_pos hlen]

theorem spineFold_skip_rejected (manifest zipf toc : List Char → Option (List Char))
    (opfDir id : List Char) (h : entryRejected manifest zipf opfDir id = true) :
    ∀ rest cs ws, spineFold manifest zipf toc opfDir (id :: rest) cs ws =
      spineFold manifest zipf toc opfDir rest cs ws := by
  intro rest cs ws
  unfold entryRejected at h
  cases hw : spineEntryWords manifest zipf opfDir id with
  | none =>
    exact spineFold_cons_skip manifest zipf toc opfDir id rest cs ws [] (Or.inl hw)
  | some w =>
    simp only [hw, decide_eq_true_eq] at h
    exact spineFold_cons_skip manifest zipf toc opfDir id rest cs ws w (Or.inr ⟨hw, h⟩)

theorem spineFold_insert_rejected (manifest zipf toc : List Char → Option (List Char))
    (opfDir id : List Char) (h : entryRejected manifest zipf opfDir id = true) :
    ∀ (pre post : List (List Char)) (cs : List EPUBChapter) (ws : List (List Char)),
      spineFold manifest zipf toc opfDir (pre ++ id :: post) cs ws =
        spineFold manifest zipf toc opfDir (pre ++ post) cs ws := by
  intro pre
  induction pre with
  | nil =>
    intro post cs ws
    simpa using spineFold_skip_rejected manifest zipf toc opfDir id h post cs ws
  | cons p pre' ih =>
    intro post cs ws
    simp only [List.cons_append]
    rw [spineFold_cons, spineFold_cons]
    cases hw : spineEntryWords manifest zipf opfDir p with
    | none => exact ih post cs ws
    | some w =>
      by_cases hlen : 10 < w.length
      · simp only [hlen, if_pos]
        exact ih post _ _
      · simp only [hlen, if_neg, if_false]
        exact ih post cs ws

theorem spineFold_words_len (manifest zipf toc : List Char → Option (List Char))
    (opfDir : List Char) :
    ∀ (spine : List (List Char)) (cs : List EPUBChapter) (ws : List (List Char)),
      (spineFold manifest zipf toc opfDir spine cs ws).2.length =
        ws.length + ((spine.map (entryWordCount manifest zipf opfDir)).sum) := by
  intro spine
  induction spine with
  | nil =>
    intro cs ws
    simp [spineFold]
  | cons id rest ih =>
    intro cs ws
    simp only [List.map_cons, List.sum_cons]
    cases hw : spineEntryWords manifest zipf opfDir id with
    | none =>
      rw [spineFold_cons_skip manifest zipf toc opfDir id rest cs ws [] (Or.inl hw)]
      rw [ih cs ws]
      simp only [entryWordCount, hw]
      omega
    | some w =>
      by_cases hlen : 10 < w.length
      · rw [spineFold_cons_accept manifest zipf toc opfDir id rest cs ws hw hlen]
        rw [ih]
        simp only [entryWordCount, hw, if_pos hlen, List.length_append]
        omega
      · rw [spineFold_cons_skip manifest zipf toc opfDir id rest cs ws w
          (Or.inr ⟨hw, by omega⟩)]
        rw [ih cs ws]
        simp only [entryWordCount, hw, if_neg hlen]
        omega

theorem parseEPUBChapters_snd (manifest zipf toc : List Char → Option (List Char))
    (opfDir : List Char) (spine : List (List Char)) :
    (parseEPUBChapters manifest zipf toc opfDir spine).2 =
      (spineFold manifest zipf toc opfDir spine [] []).2 := by
  unfold parseEPUBChapters
  by_cases hc : (spineFold manifest zipf toc opfDir spine [] []).1.isEmpty &&
      !(spineFold manifest zipf toc opfDir spine [] []).2.isEmpty
  · rw [if_pos hc]
  · rw [if_neg hc]

/-- C2 — a spine chapter with at most 10 tokens (after stripping, normalizing
and tokenizing) is discarded entirely by `parseEPUB`: deleting such an entry
from the spine leaves the chapter list and word sequence (hence every
`startIndex`) unchanged, and the total word count is the sum of the token
counts of the accepted entries only. -/
theorem epub_short_chapters_discarded
    (manifest zipf toc : List Char → Option (List Char)) (opfDir : List Char) :
    (∀ id, entryRejected manifest zipf opfDir id = true →
        ∀ pre post, parseEPUBChapters manifest zipf toc opfDir (pre ++ id :: post) =
          parseEPUBChapters manifest zipf toc opfDir (pre ++ post)) ∧
      (∀ spine, (parseEPUBChapters manifest zipf toc opfDir spine).2.length =
        (spine.map (entryWordCount manifest zipf opfDir)).sum) := by
  constructor
  · intro id hrej pre post
    unfold parseEPUBChapters
    rw [spineFold_insert_rejected manifest zipf toc opfDir id hrej pre post]
  · intro spine
    rw [parseEPUBChapters_snd, spineFold_words_len]
    simp

/-- C9 — words are appended only when a chapter is accepted, so the synthetic
"Start" fallback of `parseEPUB` is unreachable: the returned pair is exactly
the loop's result, and the chapter list is empty exactly when the word
sequence is empty. -/
theorem epub_words_iff_chapters
    (manifest zipf toc : List Char → Option (List Char)) (opfDir : List Char)
    (spine : List (List Char)) :
    parseEPUBChapters manifest zipf toc opfDir spine =
        spineFold manifest zipf toc opfDir spine [] [] ∧
      ((spineFold manifest zipf toc opfDir spine [] []).1 = [] ↔
        (spineFold manifest zipf toc opfDir spine [] []).2 = []) := by
  obtain ⟨ext, wext, heq, hiff⟩ :=
    spineFold_ext manifest zipf toc opfDir spine [] []
  simp only [List.nil_append] at heq
  have hiff2 : (spineFold manifest zipf toc opfDir spine [] []).1 = [] ↔
      (spineFold manifest zipf toc opfDir spine [] []).2 = [] := by
    rw [heq]
    exact hiff
  refine ⟨?_, hiff2⟩
  unfold parseEPUBChapters
  by_cases hc : (spineFold manifest zipf toc opfDir spine [] []).1.isEmpty &&
      !(spineFold manifest zipf toc opfDir spine [] []).2.isEmpty
  · exfalso
    simp only [Bool.and_eq_true, List.isEmpty_iff, Bool.not_eq_true',
      List.isEmpty_eq_false] at hc
    obtain ⟨h1, h2⟩ := hc
    exact h2 (hiff2.mp h1)
  · rw [if_neg hc]

/-! ### Concrete EPUB fixtures used by witnesses -/

def wManifest : List Char → Option (List Char) := fun id =>
  if id = "a".data then some ("ch1.html").data
  else if id = "b".data then some ("short.html").data
  else none

def wZip : List Char → Option (List Char) := fun p =>
  if p = "ch1.html".data then
    some ("<p>one two three four five six seven eight nine ten eleven twelve</p>").data
  else if p = "short.html".data then some ("<p>tiny words</p>").data
  else none

def wToc : List Char → Option (List Char) := fun _ => none

set_option maxRecDepth 100000 in
theorem epub_chapter_startIndex_invariant_witness :
    (parseEPUBChapters wManifest wZip wToc [] ["a".data, "b".data]).1.head? =
        some { title := "Chapter 1".data, startIndex := 0 } ∧
      ({ title := "Chapter 1".data, startIndex := 0 } : EPUBChapter).startIndex = 0 :=
  ⟨by decide,
    (epub_chapter_startIndex_invariant wManifest wZip wToc [] ["a".data, "b".data]).1
      { title := "Chapter 1".data, startIndex := 0 } (by decide)⟩

set_option maxRecDepth 100000 in
theorem epub_short_chapters_discarded_witness :
    entryRejected wManifest wZip [] ("b".data) = true ∧
      parseEPUBChapters wManifest wZip wToc [] ["a".data, "b".data] =
        parseEPUBChapters wManifest wZip wToc [] ["a".data] :=
  ⟨by decide, by
    have h := (epub_short_chapters_discarded wManifest wZip wToc []).1 ("b".data)
      (by decide) ["a".data] []
    simpa using h⟩

/-! ### More generic scanner lemmas -/

/-- Characters that can never start a match are copied through unchanged by a
collect pass. -/
theorem runCollect_skip_of_no_trigger {α : Type}
    {f : List Char → Option (List α × List Char)} (trig : Char → Bool)
    (hf : ∀ c r, trig c = false → f (c :: r) = none) :
    ∀ xs ys, (∀ x ∈ xs, trig x = false) →
      runCollect f (xs ++ ys) = runCollect f ys := by
  intro xs
  induction xs with
  | nil => intro ys _; rfl
  | cons x xs ih =>
    intro ys hall
    have hx : trig x = false := hall x (List.mem_cons_self x xs)
    rw [List.cons_append, runCollect_cons_none (hf x (xs ++ ys) hx)]
    exact ih ys (fun z hz => hall z (List.mem_cons_of_mem x hz))

/-- Characters that can never start a match are copied through unchanged by a
replace pass. -/
theorem runRepl_skip_of_no_trigger
    {f : List Char → Option (List Char × List Char)} (trig : Char → Bool)
    (hf : ∀ c r, trig c = false → f (c :: r) = none) :
    ∀ xs ys, (∀ x ∈ xs, trig x = false) →
      runRepl f (xs ++ ys) = xs ++ runRepl f ys := by
  intro xs
  induction xs with
  | nil => intro ys _; rfl
  | cons x xs ih =>
    intro ys hall
    have hx : trig x = false := hall x (List.mem_cons_self x xs)
    rw [List.cons_append, runRepl_cons_none (hf x (xs ++ ys) hx)]
    rw [ih ys (fun z hz => hall z (List.mem_cons_of_mem x hz))]
    rfl

/-! ### PDF parser (src pdf-parser service)

`parsePDF` base64-decodes the file to a binary string and extracts text with
regex scans: `BT … ET` text blocks (`Tj`/`TJ` operators), then a fallback scan
for parenthesized literals, then hex strings; literal escapes are decoded,
and the result is rejected as "likely image-based" when the trimmed extracted
text is shorter than 50 characters. -/

/-- Octal digit accumulator of `parseInt(oct, 8)`: JavaScript parses the
longest valid-octal prefix and yields `NaN` (hence character code 0 through
`fromCharCode`) when the first digit is already invalid. -/
def octalChar (ds : List Char) : Char :=
  let os := ds.takeWhile (fun c => 48 ≤ c.toNat && c.toNat ≤ 55)
  if os.isEmpty then Char.ofNat 0
  else Char.ofNat ((os.foldl (fun a c => a * 8 + (c.toNat - 48)) 0) % 65536)

/-- Matcher for the escape `/\\(\d{3})/g` of `decodePDFString`. -/
def octF (l : List Char) : Option (List Char × List Char) :=
  match l with
  | c :: r =>
    if c != '\\' then none
    else if 3 ≤ (r.takeWhile isAsciiDigit).length then
      some ([octalChar (r.take 3)], r.drop 3)
    else none
  | [] => none

/-- Source `decodePDFString`: the six literal escape replacements in source
order, then the three-digit octal escapes. -/
def decodePDFString (l : List Char) : List Char :=
  runRepl octF
    (runRepl (litF ['\\', '\\'] ['\\'])
      (runRepl (litF ['\\', ')'] [')'])
        (runRepl (litF ['\\', '('] ['('])
          (runRepl (litF ['\\', 't'] ['\t'])
            (runRepl (litF ['\\', 'r'] ['\r'])
              (runRepl (litF ['\\', 'n'] ['\n']) l))))))

def hexVal (c : Char) : Nat :=
  let n := c.toNat
  if 48 ≤ n && n ≤ 57 then n - 48
  else if 65 ≤ n && n ≤ 70 then n - 55
  else if 97 ≤ n && n ≤ 102 then n - 87
  else 0

/-- Source `decodeHexString`: two hex digits per character, zero bytes
dropped, a trailing lone digit parsed on its own. -/
def decodeHexString : List Char → List Char
  | [] => []
  | [c] => if 0 < hexVal c then [Char.ofNat (hexVal c)] else []
  | c1 :: c2 :: rest =>
    let v := 16 * hexVal c1 + hexVal c2
    (if 0 < v then [Char.ofNat v] else []) ++ decodeHexString rest

def isPrintCh (c : Char) : Bool :=
  let n := c.toNat
  (32 ≤ n && n ≤ 126) || (160 ≤ n && n ≤ 255) ||
  (1024 ≤ n && n ≤ 1279) || (192 ≤ n && n ≤ 591)

/-- Source `isPrintableText`: more than 70% of the characters printable (the
strict floating-point comparison `printable/length > 0.7` is exact as the
rational comparison below for all realistic lengths). -/
def isPrintableText (l : List Char) : Bool :=
  !l.isEmpty && 7 * l.length < 10 * (l.filter isPrintCh).length

/-- Matcher for `/\(([^)]*)\)\s*Tj/g`. -/
def tjF (l : List Char) : Option (List (List Char) × List Char) :=
  match l with
  | c :: r =>
    if c != '(' then none
    else
      match r.dropWhile (fun x => x != ')') with
      | ')' :: r2 =>
        match r2.dropWhile isJsSpace with
        | 'T' :: 'j' :: r4 =>
          some ([decodePDFString (r.takeWhile (fun x => x != ')'))], r4)
        | _ => none
      | _ => none
  | [] => none

/-- Matcher for the inner `/\(([^)]*)\)/g` scan of a TJ array. -/
def innerLitF (l : List Char) : Option (List (List Char) × List Char) :=
  match l with
  | c :: r =>
    if c != '(' then none
    else
      match r.dropWhile (fun x => x != ')') with
      | ')' :: r2 => some ([decodePDFString (r.takeWhile (fun x => x != ')'))], r2)
      | _ => none
  | [] => none

/-- Lazy search of `/\[(.*?)\]\s*TJ/`: the first `]` followed by optional
whitespace and `TJ` ends the array; `.` does not cross line terminators. -/
def tjArrAux : List Char → Option (List Char × List Char)
  | [] => none
  | c :: rest =>
    if c == ']' then
      match rest.dropWhile isJsSpace with
      | 'T' :: 'J' :: r4 => some ([], r4)
      | _ =>
        match tjArrAux rest with
        | some (content, r') => some (c :: content, r')
        | none => none
    else if isLineTerm c then none
    else
      match tjArrAux rest with
      | some (content, r') => some (c :: content, r')
      | none => none

/-- Matcher for `/\[(.*?)\]\s*TJ/g` with the inner literal scan. -/
def tjArrF (l : List Char) : Option (List (List Char) × List Char) :=
  match l with
  | c :: r =>
    if c != '[' then none
    else
      match tjArrAux r with
      | some (content, r') => some (runCollect innerLitF content, r')
      | none => none
  | [] => none

/-- All `Tj` operands of a text block, in source order (first exec loop). -/
def tjOperands (tb : List Char) : List (List Char) :=
  runCollect tjF tb

/-- All `TJ`-array operands of a text block, in source order (second loop). -/
def tjArrayOperands (tb : List Char) : List (List Char) :=
  runCollect tjArrF tb

/-- Source `extractTextOperators`: the `Tj` pass, then the `TJ` pass, all
parts joined with the empty separator. -/
def extractTextOperators (tb : List Char) : List Char :=
  (tjOperands tb ++ tjArrayOperands tb).flatten

/-- Index of the first occurrence of a (case-sensitive) pattern. -/
def findSub (pat : List Char) : List Char → Option Nat
  | [] => if pat.isPrefixOf [] then some 0 else none
  | c :: cs =>
    if pat.isPrefixOf (c :: cs) then some 0
    else (findSub pat cs).map (· + 1)

/-- The `BT … ET` regions of `/BT\s*([\s\S]*?)\s*ET/g`: each block runs from
a `BT` to the first following `ET`, with the surrounding whitespace consumed
by the greedy `\s*` anchors (hence trimmed from group 1). -/
def btEtAux : Nat → List Char → List (List Char)
  | 0, _ => []
  | fuel + 1, l =>
    match findSub ['B', 'T'] l with
    | none => []
    | some i =>
      let r1 := l.drop (i + 2)
      match findSub ['E', 'T'] r1 with
      | none => []
      | some j => jsTrim (r1.take j) :: btEtAux fuel (r1.drop (j + 2))

def btEtBlocks (l : List Char) : List (List Char) :=
  btEtAux l.length l

/-- Matcher for the fallback raw-literal scan `/\(([^)]+)\)/g`; a match that
fails the printability filter is consumed without being collected. -/
def fbLitF (l : List Char) : Option (List (List Char) × List Char) :=
  match l with
  | '(' :: r =>
    if (r.takeWhile (fun c => c != ')')).isEmpty then none
    else
      match r.dropWhile (fun c => c != ')') with
      | ')' :: r2 =>
        let content := r.takeWhile (fun c => c != ')')
        if isPrintableText content && 2 < content.length then
          some ([decodePDFString content], r2)
        else some ([], r2)
      | _ => none
  | _ => none

def isHexDigit (c : Char) : Bool :=
  let n := c.toNat
  (48 ≤ n && n ≤ 57) || (65 ≤ n && n ≤ 70) || (97 ≤ n && n ≤ 102)

/-- Matcher for the hex-string scan `/<([0-9A-Fa-f]+)>/g` with the length and
printability filters of the source loop. -/
def hexF (l : List Char) : Option (List (List Char) × List Char) :=
  match l with
  | '<' :: r =>
    if (r.takeWhile isHexDigit).isEmpty then none
    else
      match r.dropWhile isHexDigit with
      | '>' :: r2 =>
        let content := r.takeWhile isHexDigit
        if 4 < content.length then
          let decoded := decodeHexString content
          if isPrintableText decoded && 2 < decoded.length then
            some ([decoded], r2)
          else some ([], r2)
        else some ([], r2)
      | _ => none
  | _ => none

/-- JavaScript `Array.prototype.join(" ")`. -/
def joinSpace : List (List Char) → List Char
  | [] => []
  | [x] => x
  | x :: xs => x ++ ' ' :: joinSpace xs

/-- Source `extractTextFromPDFBinary`: BT/ET operator text first (empty block
results dropped by the truthiness check), then fallback literals, then hex
strings, joined with single spaces. -/
def extractTextFromPDFBinary (binary : List Char) : List Char :=
  let btParts := ((btEtBlocks binary).map extractTextOperators).filter
    (fun t => !t.isEmpty)
  let litParts := runCollect fbLitF binary
  let hexParts := runCollect hexF binary
  joinSpace (btParts ++ litParts ++ hexParts)

structure PDFContent where
  title : List Char
  text : List Char
  words : List (List Char)
deriving DecidableEq

/-- Source `parsePDF` after base64 decoding: reject when the extracted text
is missing or its trimmed length is under 50 characters — the trim happens on
the raw extracted text, before `normalizeText` runs. -/
def parsePDF (binary : List Char) : Except (List Char) PDFContent :=
  let extractedText := extractTextFromPDFBinary binary
  if extractedText = [] ∨ (jsTrim extractedText).length < 50 then
    Except.error
      ("Could not extract text from PDF. It may be a scanned/image-based document.").data
  else
    let normalizedText := normalizeText extractedText DEFAULT_OPTIONS
    Except.ok
      { title := extractTitle normalizedText 50
        text := normalizedText
        words := tokenizeWords normalizedText }

/-- Following the spec's words for comparison: collect the literal operands of
`Tj` operators and `TJ` arrays in a single pass, i.e. in source order. -/
def showTextOpsSourceOrder (tb : List Char) : List Char :=
  (runCollect (fun l =>
    match tjF l with
    | some r => some r
    | none => tjArrF l) tb).flatten

/-! ### C3 — the image-based rejection threshold -/

/-- A binary whose only content is one parenthesized literal that decodes to
eleven digit-lines: the raw extracted text is 54 characters, but every line
is a bare page number, so normalization reduces it to nothing. -/
def pdfCounterBinary : List Char :=
  ("(1234\\n1234\\n1234\\n1234\\n1234\\n1234\\n1234\\n1234\\n1234\\n1234\\n1234)").data

/-- A binary whose extracted-then-trimmed text is 30 characters long. -/
def pdfShortBinary : List Char :=
  ("(123456789012345678901234567890)").data

/-- C3 counterexample — the claim ties the "likely image-based" failure to
the length of the extracted text after normalization; on this input the
normalized text is shorter than 50 characters (indeed empty), yet `parsePDF`
succeeds, because the source checks `extractedText.trim().length` before
normalization. -/
theorem pdf_error_not_normalized_counterexample :
    (parsePDF pdfCounterBinary).isOk = true ∧
      (normalizeText (extractTextFromPDFBinary pdfCounterBinary)
        DEFAULT_OPTIONS).length < 50 := by
  constructor
  · decide
  · decide

/-- C3 (amended) — `parsePDF` fails with the "likely image-based" error
exactly when the trimmed extracted text (before normalization) is under 50
characters; in particular an input whose extracted-then-trimmed text is 30
characters long fails with that condition. -/
theorem pdf_image_error_iff_trimmed_short :
    (∀ binary : List Char, (parsePDF binary).isOk = false ↔
        (jsTrim (extractTextFromPDFBinary binary)).length < 50) ∧
      (parsePDF pdfShortBinary).isOk = false ∧
      (jsTrim (extractTextFromPDFBinary pdfShortBinary)).length = 30 := by
  refine ⟨?_, by decide, by decide⟩
  intro binary
  unfold parsePDF
  by_cases h : extractTextFromPDFBinary binary = [] ∨
      (jsTrim (extractTextFromPDFBinary binary)).length < 50
  · rw [if_pos h]
    constructor
    · intro _
      rcases h with h | h
      · rw [h]
        decide
      · exact h
    · intro _
      rfl
  · rw [if_neg h]
    push_neg at h
    constructor
    · intro hh
      exact absurd hh (by simp [Except.isOk, Except.toBool])
    · intro hlt
      omega

/-! ### C4 — operator order inside a BT/ET region -/

def tjSampleBlock : List Char := ("[(A)] TJ (B) Tj").data

/-- C4 counterexample — in a region where a `TJ` array precedes a `Tj`
operator, the source recovers the `Tj` operand first ("BA"), not the
source-order concatenation ("AB"): the two operator kinds are collected in
two separate passes. -/
theorem pdf_operator_order_counterexample :
    extractTextOperators tjSampleBlock = ("BA").data ∧
      showTextOpsSourceOrder tjSampleBlock = ("AB").data ∧
      (("BA").data : List Char) ≠ ("AB").data := by
  refine ⟨by decide, by decide, by decide⟩

/-! ### Supporting lemmas for the amended C4 statement -/

def isAlnumA (c : Char) : Bool :=
  isAsciiLetter c || isAsciiDigit c

theorem alnum_toNat {c : Char} (h : isAlnumA c = true) :
    (48 ≤ c.toNat ∧ c.toNat ≤ 57) ∨ (65 ≤ c.toNat ∧ c.toNat ≤ 90) ∨
      (97 ≤ c.toNat ∧ c.toNat ≤ 122) := by
  simp only [isAlnumA, isAsciiLetter, isAsciiDigit, Bool.or_eq_true,
    Bool.and_eq_true, decide_eq_true_eq] at h
  omega

theorem alnum_beq_false {c : Char} (h : isAlnumA c = true) (d : Char)
    (hd : isAlnumA d = false) : (c == d) = false := by
  rw [beq_eq_false_iff_ne]
  intro he
  subst he
  rw [h] at hd
  cases hd

theorem alnum_bne_true {c : Char} (h : isAlnumA c = true) (d : Char)
    (hd : isAlnumA d = false) : (c != d) = true := by
  simp [bne, alnum_beq_false h d hd]

theorem alnum_not_space {c : Char} (h : isAlnumA c = true) :
    isJsSpace c = false := by
  have := alnum_toNat h
  simp only [isJsSpace, Bool.or_eq_false_iff, Bool.and_eq_false_iff]
  simp only [decide_eq_false_iff_not]
  omega

theorem alnum_not_lineTerm {c : Char} (h : isAlnumA c = true) :
    isLineTerm c = false := by
  have := alnum_toNat h
  simp only [isLineTerm, Bool.or_eq_false_iff]
  simp only [decide_eq_false_iff_not]
  omega

theorem litF_bs_none {x : Char} {rep : List Char} {c : Char} {r : List Char}
    (hc : (c == '\\') = false) : litF ['\\', x] rep (c :: r) = none := by
  have hcc : ('\\' == c) = false := by
    rw [beq_eq_false_iff_ne]
    exact Ne.symm (beq_eq_false_iff_ne.mp hc)
  simp [litF, List.isPrefixOf, hcc]

theorem octF_none {c : Char} {r : List Char} (hc : (c == '\\') = false) :
    octF (c :: r) = none := by
  simp [octF, bne, hc]

/-- A backslash-free string decodes to itself. -/
theorem decodePDFString_id (l : List Char)
    (h : ∀ x ∈ l, (x == '\\') = false) : decodePDFString l = l := by
  have hp : ∀ x ∈ l, (!(x == '\\')) = true := by
    intro x hx
    rw [h x hx]
    rfl
  have hlit : ∀ (x : Char) (rep : List Char) c r,
      (∀ y ∈ c :: r, (!(y == '\\')) = true) → litF ['\\', x] rep (c :: r) = none := by
    intro x rep c r hall
    have := hall c (List.mem_cons_self c r)
    simp only [Bool.not_eq_true'] at this
    exact litF_bs_none this
  have hoct : ∀ c r, (∀ y ∈ c :: r, (!(y == '\\')) = true) → octF (c :: r) = none := by
    intro c r hall
    have := hall c (List.mem_cons_self c r)
    simp only [Bool.not_eq_true'] at this
    exact octF_none this
  unfold decodePDFString
  rw [runRepl_id_of_pred _ (hlit 'n' ['\n']) l hp]
  rw [runRepl_id_of_pred _ (hlit 'r' ['\r']) l hp]
  rw [runRepl_id_of_pred _ (hlit 't' ['\t']) l hp]
  rw [runRepl_id_of_pred _ (hlit '(' ['(']) l hp]
  rw [runRepl_id_of_pred _ (hlit ')' [')']) l hp]
  rw [runRepl_id_of_pred _ (hlit '\\' ['\\']) l hp]
  rw [runRepl_id_of_pred _ hoct l hp]

theorem tjArrAux_found :
    ∀ (xs tail r4 : List Char),
      (∀ x ∈ xs, (x == ']') = false ∧ isLineTerm x = false) →
      tail.dropWhile isJsSpace = 'T' :: 'J' :: r4 →
      tjArrAux (xs ++ ']' :: tail) = some (xs, r4) := by
  intro xs
  induction xs with
  | nil =>
    intro tail r4 _ htail
    simp only [List.nil_append, tjArrAux, htail]
    rfl
  | cons x xs ih =>
    intro tail r4 hall htail
    have hx := hall x (List.mem_cons_self x xs)
    have hrest : ∀ z ∈ xs, (z == ']') = false ∧ isLineTerm z = false :=
      fun z hz => hall z (List.mem_cons_of_mem x hz)
    simp only [List.cons_append, tjArrAux, hx.1, hx.2, Bool.false_eq_true,
      if_false, List.append_eq]
    rw [ih tail r4 hrest htail]

theorem tjF_none_of_head {c : Char} (h : (c == '(') = false) (r : List Char) :
    tjF (c :: r) = none := by
  simp [tjF, bne, h]

theorem tjArrF_none_of_head {c : Char} (h : (c == '[') = false) (r : List Char) :
    tjArrF (c :: r) = none := by
  simp [tjArrF, bne, h]

theorem tjF_paren (content zs : List Char)
    (hc : ∀ x ∈ content, (x != ')') = true) :
    tjF ('(' :: (content ++ ')' :: zs)) =
      match zs.dropWhile isJsSpace with
      | 'T' :: 'j' :: r4 => some ([decodePDFString content], r4)
      | _ => none := by
  obtain ⟨ht, hd⟩ := @takeWhile_all_append (fun x => x != ')') content ')' zs hc (by decide)
  simp only [tjF, bne_self_eq_false, Bool.false_eq_true, if_false, ht, hd]

theorem innerLitF_paren (content zs : List Char)
    (hc : ∀ x ∈ content, (x != ')') = true) :
    innerLitF ('(' :: (content ++ ')' :: zs)) =
      some ([decodePDFString content], zs) := by
  obtain ⟨ht, hd⟩ := @takeWhile_all_append (fun x => x != ')') content ')' zs hc (by decide)
  simp only [innerLitF, bne_self_eq_false, Bool.false_eq_true, if_false, ht, hd]

/-- The text block `[(a)] TJ (b) Tj`: a TJ array before a Tj operator. -/
def tjMixedBlock (a b : List Char) : List Char :=
  '[' :: '(' :: (a ++ ([')', ']', ' ', 'T', 'J', ' ', '('] ++
    (b ++ [')', ' ', 'T', 'j'])))

theorem tjOperands_mixedBlock (a b : List Char)
    (hA : ∀ x ∈ a, isAlnumA x = true) (hB : ∀ x ∈ b, isAlnumA x = true) :
    tjOperands (tjMixedBlock a b) = [b] := by
  have hane : ∀ x ∈ a, (x != ')') = true :=
    fun x hx => alnum_bne_true (hA x hx) ')' (by decide)
  have hbne : ∀ x ∈ b, (x != ')') = true :=
    fun x hx => alnum_bne_true (hB x hx) ')' (by decide)
  have hbbs : ∀ x ∈ b, (x == '\\') = false :=
    fun x hx => alnum_beq_false (hB x hx) '\\' (by decide)
  unfold tjOperands tjMixedBlock
  simp only [List.cons_append, List.nil_append]
  rw [runCollect_cons_none (tjF_none_of_head (by decide) _)]
  have h2 : tjF ('(' :: (a ++ ')' :: ']' :: ' ' :: 'T' :: 'J' :: ' ' :: '(' ::
      (b ++ ')' :: ' ' :: 'T' :: 'j' :: []))) = none := by
    rw [tjF_paren a _ hane]
    rfl
  rw [runCollect_cons_none h2]
  have h3 := runCollect_skip_of_no_trigger (fun c => c == '(')
    (fun c r hc => tjF_none_of_head hc r) a
    (')' :: ']' :: ' ' :: 'T' :: 'J' :: ' ' :: '(' ::
      (b ++ ')' :: ' ' :: 'T' :: 'j' :: []))
    (fun x hx => alnum_beq_false (hA x hx) '(' (by decide))
  rw [h3]
  have h4 := runCollect_skip_of_no_trigger (fun c => c == '(')
    (fun c r hc => tjF_none_of_head hc r) [')', ']', ' ', 'T', 'J', ' ']
    ('(' :: (b ++ ')' :: ' ' :: 'T' :: 'j' :: [])) (by decide)
  simp only [List.cons_append, List.nil_append] at h4
  rw [h4]
  have h5 : tjF ('(' :: (b ++ ')' :: ' ' :: 'T' :: 'j' :: [])) =
      some ([decodePDFString b], []) := by
    rw [tjF_paren b _ hbne]
    rfl
  rw [runCollect_cons_some h5 (by simp)]
  rw [decodePDFString_id b hbbs]
  rfl

theorem tjArrayOperands_mixedBlock (a b : List Char)
    (hA : ∀ x ∈ a, isAlnumA x = true) (hB : ∀ x ∈ b, isAlnumA x = true) :
    tjArrayOperands (tjMixedBlock a b) = [a] := by
  have hane : ∀ x ∈ a, (x != ')') = true :=
    fun x hx => alnum_bne_true (hA x hx) ')' (by decide)
  have habs : ∀ x ∈ a, (x == '\\') = false :=
    fun x hx => alnum_beq_false (hA x hx) '\\' (by decide)
  unfold tjArrayOperands tjMixedBlock
  simp only [List.cons_append, List.nil_append]
  have hxs : ∀ x ∈ '(' :: (a ++ [')']), (x == ']') = false ∧ isLineTerm x = false := by
    intro x hx
    rcases List.mem_cons.mp hx with hx0 | hx2
    · subst hx0
      exact ⟨by decide, by decide⟩
    · rcases List.mem_append.mp hx2 with hxa | hx1
      · exact ⟨alnum_beq_false (hA x hxa) ']' (by decide),
          alnum_not_lineTerm (hA x hxa)⟩
      · simp only [List.mem_singleton] at hx1
        subst hx1
        exact ⟨by decide, by decide⟩
  have harr := tjArrAux_found ('(' :: (a ++ [')']))
    (' ' :: 'T' :: 'J' :: ' ' :: '(' :: (b ++ ')' :: ' ' :: 'T' :: 'j' :: []))
    (' ' :: '(' :: (b ++ ')' :: ' ' :: 'T' :: 'j' :: [])) hxs (by rfl)
  simp only [List.cons_append, List.nil_append, List.append_assoc,
    List.singleton_append] at harr
  have h1 : tjArrF ('[' :: '(' :: (a ++ ')' :: ']' :: ' ' :: 'T' :: 'J' :: ' ' ::
      '(' :: (b ++ ')' :: ' ' :: 'T' :: 'j' :: []))) =
      some (runCollect innerLitF ('(' :: (a ++ [')'])),
        ' ' :: '(' :: (b ++ ')' :: ' ' :: 'T' :: 'j' :: [])) := by
    simp only [tjArrF, bne_self_eq_false, Bool.false_eq_true, if_false]
    rw [harr]
  have hinner : runCollect innerLitF ('(' :: (a ++ [')'])) = [a] := by
    have := innerLitF_paren a [] hane
    rw [runCollect_cons_some this (by simp)]
    rw [decodePDFString_id a habs]
    rfl
  rw [runCollect_cons_some h1 (by simp [List.length_append]; omega)]
  rw [hinner]
  have hskip := runCollect_skip_of_no_trigger (fun c => c == '[')
    (fun c r hc => tjArrF_none_of_head hc r)
    (' ' :: '(' :: (b ++ ')' :: ' ' :: 'T' :: 'j' :: [])) []
    (by
      intro x hx
      rcases List.mem_cons.mp hx with h0 | hx
      · subst h0; decide
      rcases List.mem_cons.mp hx with h0 | hx
      · subst h0; decide
      rcases List.mem_append.mp hx with hxb | hx
      · exact alnum_beq_false (hB x hxb) '[' (by decide)
      rcases List.mem_cons.mp hx with h0 | hx
      · subst h0; decide
      rcases List.mem_cons.mp hx with h0 | hx
      · subst h0; decide
      rcases List.mem_cons.mp hx with h0 | hx
      · subst h0; decide
      rcases List.mem_cons.mp hx with h0 | hx
      · subst h0; decide
      exact absurd hx (List.not_mem_nil x))
  simp only [List.append_nil] at hskip
  rw [hskip]
  rfl

/-- C4 (amended) — the text recovered from a BT/ET region is the
concatenation of the decoded `Tj` operands (in source order) followed by the
decoded `TJ`-array operands (in source order): the two operator kinds are
collected in two separate passes, not interleaved by source position; no
separator is inserted within a TJ array or between operators.  In particular
for the region `[(a)] TJ (b) Tj` the result is `b ++ a`. -/
theorem pdf_operators_two_pass_order :
    (∀ tb, extractTextOperators tb =
        (tjOperands tb).flatten ++ (tjArrayOperands tb).flatten) ∧
      ∀ a b : List Char,
        (∀ x ∈ a, isAlnumA x = true) → (∀ x ∈ b, isAlnumA x = true) →
        extractTextOperators (tjMixedBlock a b) = b ++ a := by
  constructor
  · intro tb
    unfold extractTextOperators
    exact List.flatten_append _ _
  · intro a b hA hB
    unfold extractTextOperators
    rw [tjOperands_mixedBlock a b hA hB, tjArrayOperands_mixedBlock a b hA hB]
    simp

theorem pdf_operators_two_pass_order_witness :
    (∀ x ∈ ("A").data, isAlnumA x = true) ∧
      extractTextOperators (tjMixedBlock ("A").data ("B").data) =
        ("B").data ++ ("A").data :=
  ⟨by decide, pdf_operators_two_pass_order.2 ("A").data ("B").data
    (by decide) (by decide)⟩

/-! ### C5 — stripHtmlTags entity handling -/

theorem scriptF_none_of_head {c : Char} (h : (c == '<') = false) (r : List Char) :
    scriptF (c :: r) = none := by
  simp [scriptF, bne, h]

theorem styleF_none_of_head {c : Char} (h : (c == '<') = false) (r : List Char) :
    styleF (c :: r) = none := by
  simp [styleF, bne, h]

theorem tagF_none_of_head {c : Char} (h : (c == '<') = false) (r : List Char) :
    tagF (c :: r) = none := by
  simp [tagF, bne, h]

/-- A case-insensitive literal pass is the identity on a text in which the
pattern never occurs. -/
theorem litCIF_id {pat rep : List Char} :
    ∀ l, occursCI pat l = false → runRepl (litCIF pat rep) l = l := by
  intro l
  induction l with
  | nil => intro _; rfl
  | cons c cs ih =>
    intro h
    simp only [occursCI, Bool.or_eq_false_iff] at h
    have hnone : litCIF pat rep (c :: cs) = none := by
      simp [litCIF, h.1]
    rw [runRepl_cons_none hnone, ih h.2]

theorem letter_alnum {c : Char} (h : isAsciiLetter c = true) :
    isAlnumA c = true := by
  simp [isAlnumA, h]

/-- C5 counterexample — the claim says every other numeric or named entity
collapses to a space, but a numeric character reference passes through
`stripHtmlTags` unchanged: the final catch-all pass only matches `&[a-z]+;`. -/
theorem stripHtml_numeric_entity_counterexample :
    stripHtmlTags ("&#65;").data = ("&#65;").data ∧
      (("&#65;").data : List Char) ≠ (" ").data := by
  refine ⟨by decide, by decide⟩

/-- C5 (amended) — `stripHtmlTags` removes script and style elements with
their content, replaces every remaining tag (with non-empty body) by one
space, decodes the six named entities, and collapses every other purely
alphabetic named entity to a space; numeric character references other than
`&#39;` are left unchanged. -/
theorem stripHtml_tags_and_entities :
    (∀ name : List Char, name ≠ [] →
        (∀ x ∈ name, isAsciiLetter x = true) →
        occursCI (("&nbsp;").data) ('&' :: (name ++ [';'])) = false →
        occursCI (("&amp;").data) ('&' :: (name ++ [';'])) = false →
        occursCI (("&lt;").data) ('&' :: (name ++ [';'])) = false →
        occursCI (("&gt;").data) ('&' :: (name ++ [';'])) = false →
        occursCI (("&quot;").data) ('&' :: (name ++ [';'])) = false →
        occursCI (("&#39;").data) ('&' :: (name ++ [';'])) = false →
        stripHtmlTags ('&' :: (name ++ [';'])) = [' ']) ∧
      stripHtmlTags ("<p>Hello <b>World</b></p>").data = (" Hello  World  ").data ∧
      (∀ x ∈ stripHtmlTags ("<p>Hello <b>World</b></p>").data,
        (x == '<') = false ∧ (x == '>') = false) ∧
      stripHtmlTags ("a<script>var x = 1;</script>b<style>p q</style>c").data =
        ("abc").data ∧
      stripHtmlTags ("&nbsp;").data = (" ").data ∧
      stripHtmlTags ("&amp;").data = ("&").data ∧
      stripHtmlTags ("&lt;").data = ("<").data ∧
      stripHtmlTags ("&gt;").data = (">").data ∧
      stripHtmlTags ("&quot;").data = ['"'] ∧
      stripHtmlTags ("&#39;").data = [aposChar] ∧
      stripHtmlTags ("&#65;").data = ("&#65;").data := by
  refine ⟨?_, by decide, by decide, by decide, by decide, by decide, by decide,
    by decide, by decide, by decide, by decide⟩
  intro name hne hlet h1 h2 h3 h4 h5 h6
  have hnc : ∀ x ∈ '&' :: (name ++ [';']), (!(x == '<')) = true := by
    intro x hx
    rcases List.mem_cons.mp hx with h0 | hx
    · subst h0; decide
    rcases List.mem_append.mp hx with hxn | hx
    · have := alnum_beq_false (letter_alnum (hlet x hxn)) '<' (by decide)
      simp [this]
    · simp only [List.mem_singleton] at hx
      subst hx; decide
  have hscript : runRepl scriptF ('&' :: (name ++ [';'])) = '&' :: (name ++ [';']) := by
    refine runRepl_id_of_pred (fun c => !(c == '<')) ?_ _ hnc
    intro c r hall
    have := hall c (List.mem_cons_self c r)
    simp only [Bool.not_eq_true'] at this
    exact scriptF_none_of_head this r
  have hstyle : runRepl styleF ('&' :: (name ++ [';'])) = '&' :: (name ++ [';']) := by
    refine runRepl_id_of_pred (fun c => !(c == '<')) ?_ _ hnc
    intro c r hall
    have := hall c (List.mem_cons_self c r)
    simp only [Bool.not_eq_true'] at this
    exact styleF_none_of_head this r
  have htag : runRepl tagF ('&' :: (name ++ [';'])) = '&' :: (name ++ [';']) := by
    refine runRepl_id_of_pred (fun c => !(c == '<')) ?_ _ hnc
    intro c r hall
    have := hall c (List.mem_cons_self c r)
    simp only [Bool.not_eq_true'] at this
    exact tagF_none_of_head this r
  have h1' : occursCI ['&', 'n', 'b', 's', 'p', ';'] ('&' :: (name ++ [';'])) = false := h1
  have h2' : occursCI ['&', 'a', 'm', 'p', ';'] ('&' :: (name ++ [';'])) = false := h2
  have h3' : occursCI ['&', 'l', 't', ';'] ('&' :: (name ++ [';'])) = false := h3
  have h4' : occursCI ['&', 'g', 't', ';'] ('&' :: (name ++ [';'])) = false := h4
  have h5' : occursCI ['&', 'q', 'u', 'o', 't', ';'] ('&' :: (name ++ [';'])) = false := h5
  have h6' : occursCI ['&', '#', '3', '9', ';'] ('&' :: (name ++ [';'])) = false := h6
  have hfin : ampEntF ('&' :: (name ++ [';'])) = some ([' '], []) := by
    obtain ⟨ht, hd⟩ := @takeWhile_all_append isAsciiLetter name ';' [] hlet (by decide)
    have hnemp : name.isEmpty = false := by
      cases name with
      | nil => exact absurd rfl hne
      | cons y ys => rfl
    simp only [ampEntF, bne_self_eq_false, Bool.false_eq_true, if_false, ht, hd,
      hnemp]
  unfold stripHtmlTags
  rw [hscript, hstyle, htag, litCIF_id _ h1', litCIF_id _ h2', litCIF_id _ h3',
    litCIF_id _ h4', litCIF_id _ h5', litCIF_id _ h6',
    runRepl_cons_some hfin (by simp), runRepl_nil]
  rfl

theorem stripHtml_tags_and_entities_witness :
    (("copy").data ≠ ([] : List Char)) ∧
      stripHtmlTags ('&' :: (("copy").data ++ [';'])) = [' '] :=
  ⟨by decide, stripHtml_tags_and_entities.1 ("copy").data (by decide) (by decide)
    (by decide) (by decide) (by decide) (by decide) (by decide) (by decide)⟩

/-! ### C6 — idempotence of normalization on clean input -/

/-- C6 — on an already-clean input (no residual artifacts: every stage of the
pipeline leaves the text unchanged), `normalizeText` with the default options
returns the text itself, applying it twice equals applying it once, and each
individual stage returns its input unchanged when re-applied to its own
output. -/
theorem normalizeText_idempotent_on_clean (x : List Char)
    (hh : handleHyphenation x = x) (hp : removePageNumbers x = x)
    (hm : removeChapterMarkers x = x) (hhd : removeHeaders x = x)
    (hc : collapseWhitespace x = x) :
    normalizeText x DEFAULT_OPTIONS = x ∧
      normalizeText (normalizeText x DEFAULT_OPTIONS) DEFAULT_OPTIONS =
        normalizeText x DEFAULT_OPTIONS ∧
      handleHyphenation (handleHyphenation x) = handleHyphenation x ∧
      removePageNumbers (removePageNumbers x) = removePageNumbers x ∧
      removeChapterMarkers (removeChapterMarkers x) = removeChapterMarkers x ∧
      removeHeaders (removeHeaders x) = removeHeaders x ∧
      collapseWhitespace (collapseWhitespace x) = collapseWhitespace x := by
  have hnorm : normalizeText x DEFAULT_OPTIONS = x := by
    simp [normalizeText, DEFAULT_OPTIONS, hh, hp, hm, hhd, hc]
  refine ⟨hnorm, ?_, ?_, ?_, ?_, ?_, ?_⟩
  · rw [hnorm, hnorm]
  · rw [hh, hh]
  · rw [hp, hp]
  · rw [hm, hm]
  · rw [hhd, hhd]
  · rw [hc, hc]

theorem normalizeText_idempotent_on_clean_witness :
    handleHyphenation ("hello world").data = ("hello world").data ∧
      normalizeText ("hello world").data DEFAULT_OPTIONS = ("hello world").data :=
  ⟨by decide,
    (normalizeText_idempotent_on_clean ("hello world").data (by decide)
      (by decide) (by decide) (by decide) (by decide)).1⟩

/-! ### C7 — hyphenation repair -/

theorem takeWhile_append_all {p : Char → Bool} (xs ys : List Char)
    (h : ∀ x ∈ xs, p x = true) :
    (xs ++ ys).takeWhile p = xs ++ ys.takeWhile p ∧
      (xs ++ ys).dropWhile p = ys.dropWhile p := by
  induction xs with
  | nil => exact ⟨rfl, rfl⟩
  | cons a as ih =>
    have ha : p a = true := h a (List.mem_cons_self a as)
    have hrest := ih (fun x hx => h x (List.mem_cons_of_mem a hx))
    constructor
    · simp [List.cons_append, List.takeWhile_cons, ha, hrest.1]
    · simp [List.cons_append, List.dropWhile_cons, ha, hrest.2]

theorem wordChar_not_space {c : Char} (h : isWordChar c = true) :
    isJsSpace c = false := by
  simp only [isWordChar, Bool.or_eq_true, Bool.and_eq_true, decide_eq_true_eq] at h
  simp only [isJsSpace, Bool.or_eq_false_iff]
  simp only [decide_eq_false_iff_not, Bool.and_eq_false_iff]
  omega

/-- C7 — a word fragment, a hyphen, optional whitespace, a line break,
optional whitespace and a continuation fragment are joined into one word with
the hyphen removed; in particular normalizing and tokenizing "happi-\nness"
yields the single token "happiness". -/
theorem hyphenation_joins_fragments :
    (∀ w1 ws1 ws2 w2 : List Char, w1 ≠ [] → w2 ≠ [] →
        (∀ x ∈ w1, isWordChar x = true) → (∀ x ∈ w2, isWordChar x = true) →
        (∀ x ∈ ws1, isJsSpace x = true) → (∀ x ∈ ws2, isJsSpace x = true) →
        handleHyphenation (w1 ++ '-' :: (ws1 ++ '\n' :: (ws2 ++ w2))) =
          w1 ++ w2) ∧
      tokenizeWords (normalizeText ("happi-\nness").data DEFAULT_OPTIONS) =
        [("happiness").data] := by
  refine ⟨?_, by decide⟩
  intro w1 ws1 ws2 w2 hw1 hw2 hword1 hword2 hws1 hws2
  obtain ⟨y, w2', rfl⟩ : ∃ y w2', w2 = y :: w2' := by
    cases w2 with
    | nil => exact absurd rfl hw2
    | cons y w2' => exact ⟨y, w2', rfl⟩
  have hyw : isWordChar y = true := hword2 y (List.mem_cons_self y w2')
  have hyns : isJsSpace y = false := wordChar_not_space hyw
  have hdw1 := @takeWhile_all_append isWordChar w1 '-'
    (ws1 ++ '\n' :: (ws2 ++ y :: w2')) hword1 (by decide)
  have hrun2 := @takeWhile_all_append isJsSpace ws2 y w2' hws2 hyns
  have hrun1 := @takeWhile_append_all isJsSpace ws1 ('\n' :: (ws2 ++ y :: w2')) hws1
  have htw2 := @takeWhile_all_eq isWordChar (y :: w2') hword2
  have hrunTake : (ws1 ++ '\n' :: (ws2 ++ y :: w2')).takeWhile isJsSpace =
      ws1 ++ '\n' :: ws2 := by
    rw [hrun1.1]
    simp [List.takeWhile_cons, show isJsSpace '\n' = true from rfl, hrun2.1]
  have hrunDrop : (ws1 ++ '\n' :: (ws2 ++ y :: w2')).dropWhile isJsSpace =
      y :: w2' := by
    rw [hrun1.2]
    simp [List.dropWhile_cons, show isJsSpace '\n' = true from rfl, hrun2.2]
  have hmatch : hyphenF (w1 ++ '-' :: (ws1 ++ '\n' :: (ws2 ++ y :: w2'))) =
      some (w1 ++ y :: w2', []) := by
    have hw1emp : w1.isEmpty = false := by
      cases w1 with
      | nil => exact absurd rfl hw1
      | cons a as => rfl
    have hcontains : (ws1 ++ '\n' :: ws2).contains '\n' = true :=
      List.elem_eq_true_of_mem (by simp)
    simp only [hyphenF, hdw1.1, hdw1.2, hw1emp, Bool.false_eq_true, if_false,
      bne_self_eq_false, beq_self_eq_true, if_pos rfl, hrunTake, hrunDrop,
      hcontains, htw2.1, htw2.2]
    have : (y :: w2').isEmpty = false := rfl
    simp [this]
  obtain ⟨a, w1', rfl⟩ : ∃ a w1', w1 = a :: w1' := by
    cases w1 with
    | nil => exact absurd rfl hw1
    | cons a w1' => exact ⟨a, w1', rfl⟩
  have hmatch' : hyphenF (a :: (w1' ++ '-' :: (ws1 ++ '\n' :: (ws2 ++ y :: w2')))) =
      some ((a :: w1') ++ y :: w2', []) := by
    simpa using hmatch
  unfold handleHyphenation
  simp only [List.cons_append]
  rw [runRepl_cons_some hmatch' (by simp), runRepl_nil]
  simp

theorem hyphenation_joins_fragments_witness :
    (("happi").data ≠ ([] : List Char)) ∧
      handleHyphenation
          (("happi").data ++ '-' :: (([] : List Char) ++ '\n' ::
            (([] : List Char) ++ ("ness").data))) =
        ("happi").data ++ ("ness").data :=
  ⟨by decide, hyphenation_joins_fragments.1 ("happi").data [] [] ("ness").data
    (by decide) (by decide) (by decide) (by decide) (by decide) (by decide)⟩

/-! ### C10 — chapter-marker removal matches any line of Roman-numeral letters -/

theorem takeWhile_nil_of_none {p : Char → Bool} (r : List Char)
    (h : ∀ x ∈ r, p x = false) : r.takeWhile p = [] := by
  cases r with
  | nil => rfl
  | cons a as => simp [List.takeWhile_cons, h a (List.mem_cons_self a as)]

theorem roman_not_digit {c : Char} (h : isRomanCI c = true) :
    isAsciiDigit c = false := by
  simp only [isRomanCI, Bool.or_eq_true, decide_eq_true_eq] at h
  simp only [isAsciiDigit, Bool.and_eq_false_iff]
  simp only [decide_eq_false_iff_not]
  omega

theorem roman_not_space {c : Char} (h : isRomanCI c = true) :
    isJsSpace c = false := by
  simp only [isRomanCI, Bool.or_eq_true, decide_eq_true_eq] at h
  simp only [isJsSpace, Bool.or_eq_false_iff, Bool.and_eq_false_iff]
  simp only [decide_eq_false_iff_not]
  omega

theorem roman_word {c : Char} (h : isRomanCI c = true) :
    isWordChar c = true := by
  simp only [isRomanCI, Bool.or_eq_true, decide_eq_true_eq] at h
  simp only [isWordChar, Bool.or_eq_true, Bool.and_eq_true, decide_eq_true_eq]
  omega

theorem romanCI_beq_false {c : Char} (h : isRomanCI c = true) (d : Char)
    (hd : isRomanCI d = false) : (c == d) = false := by
  rw [beq_eq_false_iff_ne]
  intro he
  subst he
  rw [h] at hd
  cases hd

theorem starDigitsEnd_none (r : List Char)
    (h : ∀ x ∈ r, isAsciiDigit x = false) : starDigitsEnd r = none := by
  unfold starDigitsEnd
  have : (r.dropWhile isJsSpace).takeWhile isAsciiDigit = [] :=
    takeWhile_nil_of_none _
      (fun x hx => h x ((List.dropWhile_suffix isJsSpace).sublist.subset hx))
  simp [this]

theorem digits14End_none (r : List Char)
    (h : ∀ x ∈ r, isAsciiDigit x = false) : digits14End r = none := by
  unfold digits14End
  rw [takeWhile_nil_of_none _ h]
  simp

theorem matchDropCI_none {α : Type} (pat l : List Char)
    (g : List Char → Option α) (hg : g (l.drop pat.length) = none) :
    (match dropCIOpt pat l with
      | some r => g r
      | none => none) = none := by
  unfold dropCIOpt
  by_cases hs : startsCI pat l
  · rw [if_pos hs]
    exact hg
  · rw [if_neg hs]

theorem hyphenF_none_roman (c : Char) (r : List Char)
    (h : ∀ x ∈ c :: r, isRomanCI x = true) : hyphenF (c :: r) = none := by
  have hword : ∀ x ∈ c :: r, isWordChar x = true :=
    fun x hx => roman_word (h x hx)
  have hdrop : (c :: r).dropWhile isWordChar = [] := (takeWhile_all_eq _ hword).2
  simp [hyphenF, hdrop]

theorem pageNumF_none_roman (b : Bool) (c : Char) (r : List Char)
    (h : ∀ x ∈ c :: r, isRomanCI x = true) : pageNumF b (c :: r) = none := by
  cases b with
  | false => rfl
  | true =>
    have hnd : ∀ x ∈ c :: r, isAsciiDigit x = false :=
      fun x hx => roman_not_digit (h x hx)
    have hns : ∀ x ∈ c :: r, isJsSpace x = false :=
      fun x hx => roman_not_space (h x hx)
    have hgrouped : (match dropCIOpt ['p', 'a', 'g', 'e'] (c :: r) with
        | some r1 =>
          if (r1.takeWhile isJsSpace).isEmpty then none
          else digits14End (r1.dropWhile isJsSpace)
        | none => none) = (none : Option (List Char)) := by
      apply matchDropCI_none
      have ht : ((c :: r).drop 4).takeWhile isJsSpace = [] :=
        takeWhile_nil_of_none _ (fun x hx => hns x (List.drop_subset 4 (c :: r) hx))
      have hg4 : (if (((c :: r).drop 4).takeWhile isJsSpace).isEmpty then none
          else digits14End (((c :: r).drop 4).dropWhile isJsSpace)) =
          (none : Option (List Char)) := by
        rw [ht]
        rfl
      exact hg4
    simp only [pageNumF, Bool.not_true, Bool.false_eq_true, if_false]
    rw [hgrouped]
    rw [digits14End_none (c :: r) hnd]

theorem dashNumF_none_roman (b : Bool) (c : Char) (r : List Char)
    (h : ∀ x ∈ c :: r, isRomanCI x = true) : dashNumF b (c :: r) = none := by
  cases b with
  | false => rfl
  | true =>
    have hc := h c (List.mem_cons_self c r)
    have hdash : isDash c = false := by
      simp [isDash, romanCI_beq_false hc '-' (by decide),
        romanCI_beq_false hc '—' (by decide), romanCI_beq_false hc '–' (by decide)]
    simp [dashNumF, hdash]

theorem brackNumF_none_roman (b : Bool) (c : Char) (r : List Char)
    (h : ∀ x ∈ c :: r, isRomanCI x = true) : brackNumF b (c :: r) = none := by
  cases b with
  | false => rfl
  | true =>
    have hc := h c (List.mem_cons_self c r)
    simp [brackNumF, bne, romanCI_beq_false hc '[' (by decide)]

theorem parenNumF_none_roman (b : Bool) (c : Char) (r : List Char)
    (h : ∀ x ∈ c :: r, isRomanCI x = true) : parenNumF b (c :: r) = none := by
  cases b with
  | false => rfl
  | true =>
    have hc := h c (List.mem_cons_self c r)
    simp [parenNumF, bne, romanCI_beq_false hc '(' (by decide)]

theorem pDotNumF_none_roman (b : Bool) (c : Char) (r : List Char)
    (h : ∀ x ∈ c :: r, isRomanCI x = true) : pDotNumF b (c :: r) = none := by
  cases b with
  | false => rfl
  | true =>
    have hnd : ∀ x ∈ c :: r, isAsciiDigit x = false :=
      fun x hx => roman_not_digit (h x hx)
    simp only [pDotNumF, Bool.not_true, Bool.false_eq_true, if_false]
    apply matchDropCI_none
    have hnone : digits14End (((c :: r).drop 2).dropWhile isJsSpace) = none := by
      apply digits14End_none
      intro x hx
      exact hnd x (List.drop_subset 2 (c :: r)
        ((List.dropWhile_suffix isJsSpace).sublist.subset hx))
    have hg2 : (match digits14End (((c :: r).drop 2).dropWhile isJsSpace) with
        | some r => some (([] : List Char), false, r)
        | none => none) = (none : Option (List Char × Bool × List Char)) := by
      rw [hnone]
    exact hg2

theorem chapterNumF_none_roman (b : Bool) (c : Char) (r : List Char)
    (h : ∀ x ∈ c :: r, isRomanCI x = true) : chapterNumF b (c :: r) = none := by
  cases b with
  | false => rfl
  | true =>
    have hnd : ∀ x ∈ c :: r, isAsciiDigit x = false :=
      fun x hx => roman_not_digit (h x hx)
    have halt1 : (match dropCIOpt ['c', 'h', 'a', 'p', 't', 'e', 'r'] (c :: r) with
        | some r => starDigitsEnd r
        | none => none) = (none : Option (List Char)) := by
      apply matchDropCI_none
      exact starDigitsEnd_none _
        (fun x hx => hnd x (List.drop_subset 7 (c :: r) hx))
    have halt2 : (match dropCIOpt ['c', 'a', 'p', 'í', 't', 'u', 'l', 'o'] (c :: r) with
        | some r => starDigitsEnd r
        | none => none) = (none : Option (List Char)) := by
      apply matchDropCI_none
      exact starDigitsEnd_none _
        (fun x hx => hnd x (List.drop_subset 8 (c :: r) hx))
    have halt3 : (match dropCIOpt ['c', 'a', 'p'] (c :: r) with
        | some r =>
          match r with
          | c2 :: r2 => if c2 == '.' then starDigitsEnd r2
            else starDigitsEnd (c2 :: r2)
          | [] => starDigitsEnd []
        | none => none) = (none : Option (List Char)) := by
      apply matchDropCI_none
      have hsub : ∀ x ∈ (c :: r).drop 3, isAsciiDigit x = false :=
        fun x hx => hnd x (List.drop_subset 3 (c :: r) hx)
      have hg3 : (match (c :: r).drop 3 with
          | c2 :: r2 => if c2 == '.' then starDigitsEnd r2
            else starDigitsEnd (c2 :: r2)
          | [] => starDigitsEnd []) = (none : Option (List Char)) := by
        cases hd3 : (c :: r).drop 3 with
        | nil => rfl
        | cons c2 r2 =>
          have hsub2 : ∀ x ∈ c2 :: r2, isAsciiDigit x = false := by
            rw [← hd3]
            exact hsub
          by_cases hdot : (c2 == '.') = true
          · simp only [hdot, if_pos rfl]
            exact starDigitsEnd_none r2
              (fun x hx => hsub2 x (List.mem_cons_of_mem c2 hx))
          · simp only [Bool.not_eq_true] at hdot
            simp only [hdot, Bool.false_eq_true, if_false]
            exact starDigitsEnd_none (c2 :: r2) hsub2
      exact hg3
    simp only [chapterNumF, Bool.not_true, Bool.false_eq_true, if_false]
    rw [halt1, halt2, halt3]

/-- The bare Roman-numeral pattern removes a whole line of letters drawn from
the class, whatever word they spell. -/
theorem removeChapterMarkers_roman (s : List Char) (hne : s ≠ [])
    (h : ∀ x ∈ s, isRomanCI x = true) : removeChapterMarkers s = [] := by
  unfold removeChapterMarkers
  have hM1 : runReplML chapterNumF s = s := by
    unfold runReplML
    exact runMLFrom_id_of_pred isRomanCI chapterNumF_none_roman s true h
  rw [hM1]
  obtain ⟨c, rest, rfl⟩ : ∃ c rest, s = c :: rest := by
    cases s with
    | nil => exact absurd rfl hne
    | cons c rest => exact ⟨c, rest, rfl⟩
  have htr := takeWhile_all_eq (c :: rest) h
  have hrf : romanF true (c :: rest) = some ([], false, []) := by
    simp [romanF, htr.1, htr.2, lineEnd]
  unfold runReplML
  rw [runMLFrom_cons_some hrf (by simp), runMLFrom_nil]
  rfl

/-- C10 — with `removeChapterMarkers` enabled (as in the default options),
any line consisting solely of letters drawn from `[ivxlcdm]` in either case
is deleted — ordinary words such as "mix" or "did" and a bare "I" included —
not only syntactically valid Roman numerals. -/
theorem chapter_marker_removes_roman_letter_lines :
    (∀ s : List Char, s ≠ [] → (∀ x ∈ s, isRomanCI x = true) →
        removeChapterMarkers s = [] ∧ normalizeText s DEFAULT_OPTIONS = []) ∧
      tokenizeWords (normalizeText ("It was\nmix\na mess").data DEFAULT_OPTIONS) =
        [("It").data, ("was").data, ("a").data, ("mess").data] ∧
      tokenizeWords (normalizeText ("he\ndid\nit").data DEFAULT_OPTIONS) =
        [("he").data, ("it").data] ∧
      tokenizeWords (normalizeText ("so\nI\nsaid").data DEFAULT_OPTIONS) =
        [("so").data, ("said").data] := by
  refine ⟨?_, by decide, by decide, by decide⟩
  intro s hne h
  have hm := removeChapterMarkers_roman s hne h
  refine ⟨hm, ?_⟩
  have hh : handleHyphenation s = s := by
    unfold handleHyphenation
    exact runRepl_id_of_pred isRomanCI hyphenF_none_roman s h
  have hp : removePageNumbers s = s := by
    unfold removePageNumbers
    have h1 : runReplML pageNumF s = s := by
      unfold runReplML
      exact runMLFrom_id_of_pred isRomanCI pageNumF_none_roman s true h
    have h2 : runReplML dashNumF s = s := by
      unfold runReplML
      exact runMLFrom_id_of_pred isRomanCI dashNumF_none_roman s true h
    have h3 : runReplML brackNumF s = s := by
      unfold runReplML
      exact runMLFrom_id_of_pred isRomanCI brackNumF_none_roman s true h
    have h4 : runReplML parenNumF s = s := by
      unfold runReplML
      exact runMLFrom_id_of_pred isRomanCI parenNumF_none_roman s true h
    have h5 : runReplML pDotNumF s = s := by
      unfold runReplML
      exact runMLFrom_id_of_pred isRomanCI pDotNumF_none_roman s true h
    rw [h1, h2, h3, h4, h5]
  have hhd : removeHeaders ([] : List Char) = [] := rfl
  have hcw : collapseWhitespace ([] : List Char) = [] := rfl
  simp [normalizeText, DEFAULT_OPTIONS, hh, hp, hm, hhd, hcw]

theorem chapter_marker_removes_roman_letter_lines_witness :
    (("mix").data ≠ ([] : List Char)) ∧
      removeChapterMarkers ("mix").data = [] ∧
      normalizeText ("mix").data DEFAULT_OPTIONS = [] :=
  ⟨by decide,
    (chapter_marker_removes_roman_letter_lines.1 ("mix").data (by decide)
      (by decide)).1,
    (chapter_marker_removes_roman_letter_lines.1 ("mix").data (by decide)
      (by decide)).2⟩


/-! ### Import orchestrator (src book-import service)

`importBook` copies the file, parses it (EPUB or PDF path), builds the book
record, then calls `saveBook` followed by `saveWordsCache`.  The external
effects (copy destination, parser outcomes, storage success) are oracles, and
the successful persistence calls are recorded in order so that atomicity can
be stated about the trace. -/

inductive DocumentType where
  | epub
  | pdf
deriving DecidableEq

structure PickedDocument where
  uri : List Char
  name : List Char
  type : DocumentType
  size : Nat
deriving DecidableEq

structure EPUBMetadata where
  title : Option (List Char)
  author : Option (List Char)
deriving DecidableEq

structure EPUBContent where
  metadata : EPUBMetadata
  text : List Char
  words : List (List Char)
  chapters : List EPUBChapter
deriving DecidableEq

structure Book where
  id : List Char
  title : List Char
  author : Option (List Char)
  type : DocumentType
  filePath : List Char
  wordCount : Nat
  currentWord : Nat
  addedAt : Nat
  lastReadAt : Option Nat
  chapters : Option (List EPUBChapter)
deriving DecidableEq

inductive PersistAction where
  | persistBook (b : Book)
  | persistWords (ws : List (List Char))
deriving DecidableEq

structure ImportOracles where
  bookId : List Char
  nowMs : Nat
  copyRes : Except (List Char) (List Char)
  epubAt : List Char → Except (List Char) EPUBContent
  pdfAt : List Char → Except (List Char) PDFContent
  saveBookOk : Bool
  saveWordsOk : Bool

/-- Case-insensitive suffix test. -/
def endsCI (pat l : List Char) : Bool :=
  startsCI pat.reverse l.reverse

/-- Matcher for `/\s+/g` (collapse to one space). -/
def wsRunF (l : List Char) : Option (List Char × List Char) :=
  match l with
  | c :: _ =>
    if isJsSpace c then some ([' '], l.dropWhile isJsSpace) else none
  | [] => none

/-- Title-casing of `/\b\w/g`: upper-case each word character that does not
follow another word character. -/
def titleCaseGo (prevWord : Bool) : List Char → List Char
  | [] => []
  | c :: rest =>
    (if isWordChar c && !prevWord then upperAsciiChar c else c) ::
      titleCaseGo (isWordChar c) rest

/-- Source `extractTitleFromFilename`: strip the `.epub`/`.pdf` extension,
turn separators into spaces, collapse whitespace, trim, title-case, and fall
back to "Untitled" when nothing remains. -/
def extractTitleFromFilename (filename : List Char) : List Char :=
  let name0 :=
    if endsCI (".epub").data filename then filename.take (filename.length - 5)
    else if endsCI (".pdf").data filename then filename.take (filename.length - 4)
    else filename
  let name1 := name0.map (fun c => if c == '_' || c == '-' then ' ' else c)
  let name2 := jsTrim (runRepl wsRunF name1)
  let name3 := titleCaseGo false name2
  if name3.isEmpty then ("Untitled").data else name3

/-- JavaScript `a || b` on an optional string: the empty string is falsy. -/
def jsOrElse (x : Option (List Char)) (fallback : List Char) : List Char :=
  match x with
  | some s => if s.isEmpty then fallback else s
  | none => fallback

/-- The parsing stage of `importBook`: dispatch on the document kind and
derive title/author/words/chapters exactly as the source does. -/
def parseStage (o : ImportOracles) (doc : PickedDocument) (filePath : List Char) :
    Except (List Char)
      (List Char × Option (List Char) × List (List Char) ×
        Option (List EPUBChapter)) :=
  match doc.type with
  | .epub =>
    match o.epubAt filePath with
    | .error e => .error e
    | .ok content =>
      .ok (jsOrElse content.metadata.title (extractTitleFromFilename doc.name),
        content.metadata.author, content.words, some content.chapters)
  | .pdf =>
    match o.pdfAt filePath with
    | .error e => .error e
    | .ok content =>
      .ok (jsOrElse (some content.title) (extractTitleFromFilename doc.name),
        none, content.words, none)

/-- The persistence tail of `importBook`: `saveBook`, then `saveWordsCache`;
a failure of either yields an error, and the trace lists the writes that
completed. -/
def importPersist (o : ImportOracles) (book : Book) (words : List (List Char)) :
    Except (List Char) Book × List PersistAction :=
  if o.saveBookOk then
    if o.saveWordsOk then
      (.ok book, [.persistBook book, .persistWords words])
    else (.error ("saveWordsCache failed").data, [.persistBook book])
  else (.error ("saveBook failed").data, [])

/-- `importBook` after a successful copy: parse, build the record, persist. -/
def importAfterCopy (o : ImportOracles) (doc : PickedDocument)
    (filePath : List Char) : Except (List Char) Book × List PersistAction :=
  match parseStage o doc filePath with
  | .error e => (.error e, [])
  | .ok (title, author, words, chapters) =>
    importPersist o
      { id := o.bookId
        title := title
        author := author
        type := doc.type
        filePath := filePath
        wordCount := words.length
        currentWord := 0
        addedAt := o.nowMs
        lastReadAt := none
        chapters := chapters } words

/-- Source `importBook`: copy, parse, build the record, `saveBook`, then
`saveWordsCache`; any failure propagates as an error. -/
def importBook (o : ImportOracles) (doc : PickedDocument) :
    Except (List Char) Book × List PersistAction :=
  match o.copyRes with
  | .error e => (.error e, [])
  | .ok filePath => importAfterCopy o doc filePath

def oCounter : ImportOracles :=
  { bookId := ("book_1").data
    nowMs := 0
    copyRes := .ok (("path").data)
    epubAt := fun _ => .ok
      { metadata := { title := some (("T").data), author := none }
        text := []
        words := [("w").data]
        chapters := [] }
    pdfAt := fun _ => .error (("unused").data)
    saveBookOk := true
    saveWordsOk := false }

def docCounter : PickedDocument :=
  { uri := ("u").data, name := ("b.epub").data, type := .epub, size := 0 }

/-- C8 counterexample — when the word-cache write fails after the record
write, the import aborts with an error, yet the book record has already been
persisted: the claim "if any step fails, no book record is persisted" does
not hold for a failure of the `saveWordsCache` step. -/
theorem importBook_cache_failure_persists_record :
    (importBook oCounter docCounter).1 = .error (("saveWordsCache failed").data) ∧
      (importBook oCounter docCounter).2 =
        [.persistBook
          { id := ("book_1").data
            title := ("T").data
            author := none
            type := .epub
            filePath := ("path").data
            wordCount := 1
            currentWord := 0
            addedAt := 0
            lastReadAt := none
            chapters := some [] }] :=
  ⟨rfl, rfl⟩

/-- C8 (amended) — `importBook` is atomic up to the record write: a failure
in copying or parsing (including the PDF image-based condition) aborts
the run with no book record persisted, a failed record write persists
nothing, and a record is persisted only after the parsing stage has
succeeded; however, a failure of the word-cache write occurs after the
record write, aborting the import with the record already persisted. -/
theorem importBook_persist_atomicity (o : ImportOracles) (doc : PickedDocument) :
    (∀ e, o.copyRes = .error e → importBook o doc = (.error e, [])) ∧
      (∀ fp e, o.copyRes = .ok fp → parseStage o doc fp = .error e →
        importBook o doc = (.error e, [])) ∧
      (o.saveBookOk = false → (importBook o doc).2 = []) ∧
      (∀ b, PersistAction.persistBook b ∈ (importBook o doc).2 →
        ∃ fp, o.copyRes = .ok fp ∧ (parseStage o doc fp).isOk = true) := by
  refine ⟨?_, ?_, ?_, ?_⟩
  · intro e he
    unfold importBook
    rw [he]
  · intro fp e hc hp
    unfold importBook
    rw [hc]
    show importAfterCopy o doc fp = (Except.error e, [])
    unfold importAfterCopy
    rw [hp]
  · intro hs
    unfold importBook
    cases hc : o.copyRes with
    | error e => rfl
    | ok fp =>
      show (importAfterCopy o doc fp).2 = []
      unfold importAfterCopy
      cases hp : parseStage o doc fp with
      | error e => rfl
      | ok tup =>
        obtain ⟨title, author, words, chapters⟩ := tup
        show (importPersist o _ words).2 = []
        unfold importPersist
        rw [hs]
        simp
  · intro b hb
    unfold importBook at hb
    cases hc : o.copyRes with
    | error e =>
      rw [hc] at hb
      exact absurd (hb : PersistAction.persistBook b ∈ ([] : List PersistAction))
        (List.not_mem_nil _)
    | ok fp =>
      rw [hc] at hb
      have hb2 : PersistAction.persistBook b ∈ (importAfterCopy o doc fp).2 := hb
      refine ⟨fp, rfl, ?_⟩
      unfold importAfterCopy at hb2
      cases hp : parseStage o doc fp with
      | error e =>
        rw [hp] at hb2
        exact absurd (hb2 : PersistAction.persistBook b ∈ ([] : List PersistAction))
          (List.not_mem_nil _)
      | ok tup =>
        rfl

def oWitness : ImportOracles :=
  { bookId := ("book_2").data
    nowMs := 0
    copyRes := .ok (("path").data)
    epubAt := fun _ => .error (("unused").data)
    pdfAt := fun _ => parsePDF pdfShortBinary
    saveBookOk := true
    saveWordsOk := true }

def docWitness : PickedDocument :=
  { uri := ("u").data, name := ("scan.pdf").data, type := .pdf, size := 0 }

set_option maxRecDepth 100000 in
theorem importBook_persist_atomicity_witness :
    parseStage oWitness docWitness (("path").data) =
        .error (("Could not extract text from PDF. It may be a scanned/image-based document.").data) ∧
      importBook oWitness docWitness =
        (.error (("Could not extract text from PDF. It may be a scanned/image-based document.").data), []) :=
  ⟨rfl,
    (importBook_persist_atomicity oWitness docWitness).2.1 (("path").data)
      (("Could not extract text from PDF. It may be a scanned/image-based document.").data)
      rfl rfl⟩
